import Mathlib

set_option maxHeartbeats 1000000
set_option linter.unusedSectionVars false

/-!
Verification development for the two data-structure cores of this
repository: the LRU-K replacer (`src/buffer/lru_k_replacer.cpp`) and the
extendible hash table (`src/container/hash/extendible_hash_table.cpp`).

The C++ sources are shallowly embedded as pure Lean functions over explicit
state records.  Machine integers are modelled as `Nat` (the quantities
involved — timestamps, depths, list lengths — never approach the word size
in any state the claims are about; the directory mask `(1 << d) - 1` is
modelled as `% 2 ^ d`).  Fallible operations return `Option` / `Except`;
assertion failures and undefined behaviour are modelled as distinguished
result values.
-/

/-! ## LRU-K replacer: state

`FrameInfo` mirrors the per-frame record of the replacer.  The header that
declares it is not part of the sources; the fields are the ones the `.cpp`
file uses.  Modelled from the spec: a record is created with
`evictable = false`, and the frame container is modelled as an
insertion-ordered association list (the C++ container's iteration order is
fixed by its header, which is not in the sources; the scan order matters
only for the C1 analysis, which fixes a concrete order). -/
structure FrameInfo where
  access_history_ : List Nat
  evictable_ : Bool
deriving DecidableEq

/-- State of `LRUKReplacer`: the frame map, `curr_size_`,
`current_timestamp_`, `replacer_size_` and `k_`, exactly the fields the
`.cpp` file manipulates. -/
structure LRUKReplacer where
  frame_map_ : List (Nat × FrameInfo)
  curr_size_ : Nat
  current_timestamp_ : Nat
  replacer_size_ : Nat
  k_ : Nat
deriving DecidableEq

/-- `LRUKReplacer::LRUKReplacer(num_frames, k)`. -/
def newReplacer (num_frames k : Nat) : LRUKReplacer :=
  ⟨[], 0, 0, num_frames, k⟩

/-- Lookup in the frame map (`frame_map_.count` / `frame_map_[fid]`). -/
def lookupF (fid : Nat) : List (Nat × FrameInfo) → Option FrameInfo
  | [] => none
  | p :: rest => if p.1 = fid then some p.2 else lookupF fid rest

/-- Replace the record of `fid` (the C++ map holds at most one entry per
key; this replaces the first matching entry). -/
def updateF (fid : Nat) (info : FrameInfo) :
    List (Nat × FrameInfo) → List (Nat × FrameInfo)
  | [] => []
  | p :: rest => if p.1 = fid then (p.1, info) :: rest else p :: updateF fid info rest

/-- Erase the record of `fid` (`frame_map_.erase`). -/
def eraseF (fid : Nat) : List (Nat × FrameInfo) → List (Nat × FrameInfo)
  | [] => []
  | p :: rest => if p.1 = fid then rest else p :: eraseF fid rest

/-- `LRUKReplacer::RecordAccess`.  `none` models the `BUSTUB_ASSERT`
trap on `frame_id > replacer_size_`. -/
def recordAccess (s : LRUKReplacer) (fid : Nat) : Option LRUKReplacer :=
  if fid ≤ s.replacer_size_ then
    match lookupF fid s.frame_map_ with
    | none =>
        some { s with
          frame_map_ := s.frame_map_ ++ [(fid, ⟨[s.current_timestamp_], false⟩)],
          current_timestamp_ := s.current_timestamp_ + 1 }
    | some info =>
        let h1 := info.access_history_ ++ [s.current_timestamp_]
        let h2 := if s.k_ < h1.length then h1.tail else h1
        some { s with
          frame_map_ := updateF fid ⟨h2, info.evictable_⟩ s.frame_map_,
          current_timestamp_ := s.current_timestamp_ + 1 }
  else none

/-- `LRUKReplacer::SetEvictable`.  `none` models the `BUSTUB_ASSERT`
trap on an untracked frame (line 71 of the source). -/
def setEvictable (s : LRUKReplacer) (fid : Nat) (e : Bool) : Option LRUKReplacer :=
  match lookupF fid s.frame_map_ with
  | none => none
  | some info =>
      if info.evictable_ = e then some s
      else some { s with
        frame_map_ := updateF fid ⟨info.access_history_, e⟩ s.frame_map_,
        curr_size_ := if e then s.curr_size_ + 1 else s.curr_size_ - 1 }

/-- `LRUKReplacer::Remove`.  `Except.error ()` models the
`throw "Remove a non-evictable frame!"` (the `NotEvictable` error kind);
the throw happens before any mutation, so no state accompanies it. -/
def removeFrame (s : LRUKReplacer) (fid : Nat) : Except Unit LRUKReplacer :=
  match lookupF fid s.frame_map_ with
  | none => .ok s
  | some info =>
      if info.evictable_ then
        .ok { s with frame_map_ := eraseF fid s.frame_map_,
                     curr_size_ := s.curr_size_ - 1 }
      else .error ()

/-- The candidate-selection scan of `LRUKReplacer::Evict` (lines 26–47),
translated branch by branch.  Arguments mirror the local variables
`to_evict` (as the chosen frame id), `less_than_k` and `max_distance`.
Note that the branch switching to the first infant candidate (lines 37–39)
does not update `max_distance`, exactly as in the source. -/
def evictLoop (k : Nat) :
    List (Nat × FrameInfo) → Option Nat → Bool → Nat → Option Nat
  | [], best, _, _ => best
  | p :: rest, none, ltk, maxd =>
    if p.2.evictable_ = false then evictLoop k rest none ltk maxd
    else
      evictLoop k rest (some p.1) (decide (p.2.access_history_.length < k))
        (p.2.access_history_.headD 0)
  | p :: rest, some b, ltk, maxd =>
    if p.2.evictable_ = false then evictLoop k rest (some b) ltk maxd
    else
      if ltk = false ∧ p.2.access_history_.length < k then
        evictLoop k rest (some p.1) true maxd
      else if (ltk = true ∧ p.2.access_history_.length < k ∧
                  p.2.access_history_.headD 0 < maxd)
            ∨ (ltk = false ∧ p.2.access_history_.length = k ∧
                  p.2.access_history_.headD 0 < maxd) then
        evictLoop k rest (some p.1) ltk (p.2.access_history_.headD 0)
      else evictLoop k rest (some b) ltk maxd

/-- Result of `LRUKReplacer::Evict`: `empty` is the `curr_size_ == 0`
early return, `iterUB` marks the path where the scan found no candidate and
the source would dereference and erase the `end()` iterator (undefined
behaviour), `evicted fid s` is the successful path. -/
inductive EvictResult where
  | empty
  | iterUB
  | evicted (fid : Nat) (s : LRUKReplacer)
deriving DecidableEq

/-- `LRUKReplacer::Evict`. -/
def evict (s : LRUKReplacer) : EvictResult :=
  if s.curr_size_ = 0 then .empty
  else
    match evictLoop s.k_ s.frame_map_ none false (2 ^ 64 - 1) with
    | none => .iterUB
    | some fid =>
        .evicted fid { s with frame_map_ := eraseF fid s.frame_map_,
                              curr_size_ := s.curr_size_ - 1 }

/-- `LRUKReplacer::Size`. -/
def sizeR (s : LRUKReplacer) : Nat := s.curr_size_

/-- The evicted frame id of an `EvictResult`, if any. -/
def evictedFrame : EvictResult → Option Nat
  | .evicted fid _ => some fid
  | _ => none

/-! ## LRU-K replacer: operation sequences -/

/-- One public replacer operation. -/
inductive ROp where
  | record (fid : Nat)
  | setEv (fid : Nat) (e : Bool)
  | remove (fid : Nat)
  | evictOp
deriving DecidableEq

/-- Execute one operation.  A trapped assertion aborts the program, so no
later state exists; modelling it as the unchanged state is conservative for
state-invariant claims.  A caught `NotEvictable` leaves the state unchanged
(the source throws before mutating). -/
def rstep (s : LRUKReplacer) : ROp → LRUKReplacer
  | .record fid => (recordAccess s fid).getD s
  | .setEv fid e => (setEvictable s fid e).getD s
  | .remove fid =>
      match removeFrame s fid with
      | .ok t => t
      | .error _ => s
  | .evictOp =>
      match evict s with
      | .evicted _ t => t
      | _ => s

/-- Execute a sequence of operations. -/
def runOps (s : LRUKReplacer) (ops : List ROp) : LRUKReplacer :=
  ops.foldl rstep s

/-- Count of tracked records whose evictable flag is true. -/
def countEvictable (m : List (Nat × FrameInfo)) : Nat :=
  (m.filter (fun p => p.2.evictable_)).length

/-- Keys of the frame map. -/
def keysOf (m : List (Nat × FrameInfo)) : List Nat := m.map Prod.fst

/-- The replacer representation invariant: `curr_size_` counts the
evictable records, and keys are unique (the C++ map cannot hold duplicate
keys). -/
structure RInv (s : LRUKReplacer) : Prop where
  size_eq : s.curr_size_ = countEvictable s.frame_map_
  nodup : (keysOf s.frame_map_).Nodup

/-- Specification-side definition (the LRU-K rule of spec §4.1, written
from the spec's words, for comparison with `evict`): among evictable
frames, infants (fewer than K accesses) take priority; within the chosen
class the victim is the frame with the smallest front-of-history
timestamp. -/
def specEvictVictim (s : LRUKReplacer) : Option Nat :=
  let ev := s.frame_map_.filter (fun p => p.2.evictable_)
  let infants := ev.filter (fun p => p.2.access_history_.length < s.k_)
  let cls := if infants.isEmpty then ev else infants
  (cls.foldl (fun acc p =>
      match acc with
      | none => some p
      | some q =>
          if p.2.access_history_.headD 0 < q.2.access_history_.headD 0 then some p
          else some q) none).map Prod.fst

/-! ## LRU-K replacer: basic lemmas -/

theorem countEvictable_nil : countEvictable [] = 0 := rfl

theorem countEvictable_cons (p : Nat × FrameInfo) (m : List (Nat × FrameInfo)) :
    countEvictable (p :: m) =
      (if p.2.evictable_ = true then 1 else 0) + countEvictable m := by
  simp only [countEvictable, List.filter_cons]
  split <;> simp [Nat.add_comm]

theorem countEvictable_append (m1 m2 : List (Nat × FrameInfo)) :
    countEvictable (m1 ++ m2) = countEvictable m1 + countEvictable m2 := by
  simp [countEvictable, List.filter_append]

theorem lookupF_eq_none (fid : Nat) :
    ∀ m : List (Nat × FrameInfo), lookupF fid m = none ↔ fid ∉ keysOf m := by
  intro m
  induction m with
  | nil => simp [lookupF, keysOf]
  | cons p rest ih =>
    by_cases hp : p.1 = fid
    · simp [lookupF, hp, keysOf]
    · simp [lookupF, hp, keysOf, ih]
      intro h
      exact fun he => hp he.symm

theorem keysOf_updateF (fid : Nat) (info : FrameInfo) :
    ∀ m : List (Nat × FrameInfo), keysOf (updateF fid info m) = keysOf m := by
  intro m
  induction m with
  | nil => rfl
  | cons p rest ih =>
    by_cases hp : p.1 = fid
    · simp [updateF, hp, keysOf]
    · simp [updateF, hp, keysOf] at ih ⊢
      exact ih

theorem countEvictable_updateF (fid : Nat) (info2 : FrameInfo) :
    ∀ (m : List (Nat × FrameInfo)) (info : FrameInfo), lookupF fid m = some info →
      countEvictable (updateF fid info2 m) + (if info.evictable_ = true then 1 else 0) =
        countEvictable m + (if info2.evictable_ = true then 1 else 0) := by
  intro m
  induction m with
  | nil => intro info h; simp [lookupF] at h
  | cons p rest ih =>
    intro info h
    by_cases hp : p.1 = fid
    · simp only [lookupF, hp, if_pos] at h
      cases h
      simp only [updateF, hp, if_pos, countEvictable_cons]
      cases hb : info2.evictable_ <;> cases hb2 : p.2.evictable_ <;> simp [hb, hb2]
      · omega
      · omega
    · simp only [lookupF, hp, if_neg, ite_false] at h
      simp only [updateF, hp, if_neg, ite_false, countEvictable_cons]
      have := ih info h
      omega

theorem countEvictable_eraseF (fid : Nat) :
    ∀ (m : List (Nat × FrameInfo)) (info : FrameInfo), lookupF fid m = some info →
      countEvictable (eraseF fid m) + (if info.evictable_ = true then 1 else 0) =
        countEvictable m := by
  intro m
  induction m with
  | nil => intro info h; simp [lookupF] at h
  | cons p rest ih =>
    intro info h
    by_cases hp : p.1 = fid
    · simp only [lookupF, hp, if_pos] at h
      cases h
      simp only [eraseF, hp, if_pos, countEvictable_cons]
      omega
    · simp only [lookupF, hp, if_neg, ite_false] at h
      simp only [eraseF, hp, if_neg, ite_false, countEvictable_cons]
      have := ih info h
      omega

theorem eraseF_sublist (fid : Nat) :
    ∀ m : List (Nat × FrameInfo), List.Sublist (eraseF fid m) m := by
  intro m
  induction m with
  | nil => simp [eraseF]
  | cons p rest ih =>
    by_cases hp : p.1 = fid
    · simp only [eraseF, hp, if_pos]
      exact (List.sublist_cons_self p rest)
    · simp only [eraseF, hp, if_neg, ite_false]
      exact List.Sublist.cons₂ p ih

theorem lookupF_of_mem_nodup (fid : Nat) (info : FrameInfo) :
    ∀ m : List (Nat × FrameInfo), (keysOf m).Nodup → (fid, info) ∈ m →
      lookupF fid m = some info := by
  intro m
  induction m with
  | nil => intro _ h; simp at h
  | cons p rest ih =>
    intro hnd hmem
    simp only [keysOf, List.map_cons, List.nodup_cons] at hnd
    rcases List.mem_cons.mp hmem with h | h
    · cases h
      simp [lookupF]
    · by_cases hp : p.1 = fid
      · exfalso
        apply hnd.1
        subst hp
        have : ((p.1, info) : Nat × FrameInfo).1 ∈ rest.map Prod.fst :=
          List.mem_map_of_mem Prod.fst h
        exact this
      · simp only [lookupF, hp, if_neg, ite_false]
        exact ih hnd.2 h

/-! ## LRU-K replacer: scan lemmas -/

theorem evictLoop_some_ne_none (k : Nat) :
    ∀ (m : List (Nat × FrameInfo)) (b : Nat) (ltk : Bool) (maxd : Nat),
      evictLoop k m (some b) ltk maxd ≠ none := by
  intro m
  induction m with
  | nil => intro b ltk maxd h; simp [evictLoop] at h
  | cons p rest ih =>
    intro b ltk maxd
    simp only [evictLoop]
    split
    · exact ih b ltk maxd
    · split
      · exact ih p.1 true maxd
      · split
        · exact ih p.1 ltk _
        · exact ih b ltk maxd

theorem evictLoop_exists_evictable (k : Nat) :
    ∀ (m : List (Nat × FrameInfo)) (ltk : Bool) (maxd : Nat),
      (∃ p ∈ m, p.2.evictable_ = true) →
      evictLoop k m none ltk maxd ≠ none := by
  intro m
  induction m with
  | nil => intro ltk maxd h; simp at h
  | cons p rest ih =>
    intro ltk maxd h
    simp only [evictLoop]
    by_cases hp : p.2.evictable_ = false
    · rw [if_pos hp]
      apply ih
      rcases h with ⟨q, hq, he⟩
      rcases List.mem_cons.mp hq with rfl | hq2
      · rw [he] at hp; cases hp
      · exact ⟨q, hq2, he⟩
    · rw [if_neg hp]
      apply evictLoop_some_ne_none

theorem evictLoop_mem (k : Nat) :
    ∀ (m : List (Nat × FrameInfo)) (best : Option Nat) (ltk : Bool) (maxd : Nat)
      (f : Nat), evictLoop k m best ltk maxd = some f →
      best = some f ∨ ∃ info, (f, info) ∈ m ∧ info.evictable_ = true := by
  intro m
  induction m with
  | nil => intro best ltk maxd f h; left; exact h
  | cons p rest ih =>
    intro best ltk maxd f h
    have hself : ∀ hpt : ¬ p.2.evictable_ = false,
        (∃ info, (f, info) ∈ rest ∧ info.evictable_ = true) ∨ some p.1 = some f →
        ∃ info, (f, info) ∈ p :: rest ∧ info.evictable_ = true := by
      intro hpt hcase
      rcases hcase with ⟨info, hm, he⟩ | hpf
      · exact ⟨info, List.mem_cons_of_mem p hm, he⟩
      · have hf : f = p.1 := (Option.some.inj hpf).symm
        subst hf
        exact ⟨p.2, List.mem_cons_self p rest, by simpa using hpt⟩
    cases best with
    | none =>
      simp only [evictLoop] at h
      by_cases hp : p.2.evictable_ = false
      · rw [if_pos hp] at h
        rcases ih none _ _ f h with h2 | ⟨info, hm, he⟩
        · cases h2
        · exact Or.inr ⟨info, List.mem_cons_of_mem p hm, he⟩
      · rw [if_neg hp] at h
        rcases ih (some p.1) _ _ f h with h2 | ⟨info, hm, he⟩
        · exact Or.inr (hself hp (Or.inr h2))
        · exact Or.inr ⟨info, List.mem_cons_of_mem p hm, he⟩
    | some b =>
      simp only [evictLoop] at h
      by_cases hp : p.2.evictable_ = false
      · rw [if_pos hp] at h
        rcases ih (some b) _ _ f h with h2 | ⟨info, hm, he⟩
        · exact Or.inl h2
        · exact Or.inr ⟨info, List.mem_cons_of_mem p hm, he⟩
      · rw [if_neg hp] at h
        split at h
        · rcases ih (some p.1) _ _ f h with h2 | ⟨info, hm, he⟩
          · exact Or.inr (hself hp (Or.inr h2))
          · exact Or.inr ⟨info, List.mem_cons_of_mem p hm, he⟩
        · split at h
          · rcases ih (some p.1) _ _ f h with h2 | ⟨info, hm, he⟩
            · exact Or.inr (hself hp (Or.inr h2))
            · exact Or.inr ⟨info, List.mem_cons_of_mem p hm, he⟩
          · rcases ih (some b) _ _ f h with h2 | ⟨info, hm, he⟩
            · exact Or.inl h2
            · exact Or.inr ⟨info, List.mem_cons_of_mem p hm, he⟩

/-! ## LRU-K replacer: invariant preservation -/

theorem rinv_new (cap k : Nat) : RInv (newReplacer cap k) :=
  ⟨rfl, List.nodup_nil⟩

theorem keysOf_append_single (m : List (Nat × FrameInfo)) (p : Nat × FrameInfo) :
    keysOf (m ++ [p]) = keysOf m ++ [p.1] := by
  simp [keysOf]

theorem nodup_keys_eraseF (fid : Nat) (m : List (Nat × FrameInfo))
    (h : (keysOf m).Nodup) : (keysOf (eraseF fid m)).Nodup :=
  List.Nodup.sublist (List.Sublist.map Prod.fst (eraseF_sublist fid m)) h


theorem rinv_of_parts (m : List (Nat × FrameInfo)) (cs ts rs k : Nat)
    (h1 : cs = countEvictable m) (h2 : (keysOf m).Nodup) :
    RInv ⟨m, cs, ts, rs, k⟩ :=
  ⟨h1, h2⟩

theorem rinv_record (s : LRUKReplacer) (fid : Nat) :
    RInv s → RInv ((recordAccess s fid).getD s) := by
  intro hinv
  by_cases hle : fid ≤ s.replacer_size_
  · cases hl : lookupF fid s.frame_map_ with
    | none =>
      have hst : (recordAccess s fid).getD s =
          { s with
            frame_map_ := s.frame_map_ ++ [(fid, ⟨[s.current_timestamp_], false⟩)],
            current_timestamp_ := s.current_timestamp_ + 1 } := by
        simp [recordAccess, hle, hl]
      rw [hst]
      refine rinv_of_parts _ _ _ _ _ ?_ ?_
      · rw [countEvictable_append, countEvictable_cons]
        simpa using hinv.size_eq
      · rw [keysOf_append_single]
        have hnotin : fid ∉ keysOf s.frame_map_ := (lookupF_eq_none fid _).mp hl
        refine List.Nodup.append hinv.nodup (List.nodup_singleton fid) ?_
        simpa [List.disjoint_singleton] using hnotin
    | some info =>
      have hst : (recordAccess s fid).getD s =
          { s with
            frame_map_ := updateF fid
              ⟨(if s.k_ < (info.access_history_ ++ [s.current_timestamp_]).length then
                  (info.access_history_ ++ [s.current_timestamp_]).tail
                else info.access_history_ ++ [s.current_timestamp_]),
               info.evictable_⟩ s.frame_map_,
            current_timestamp_ := s.current_timestamp_ + 1 } := by
        simp [recordAccess, hle, hl]
      rw [hst]
      refine rinv_of_parts _ _ _ _ _ ?_ ?_
      · have hcu2 : countEvictable (updateF fid
            ⟨(if s.k_ < (info.access_history_ ++ [s.current_timestamp_]).length then
                (info.access_history_ ++ [s.current_timestamp_]).tail
              else info.access_history_ ++ [s.current_timestamp_]),
             info.evictable_⟩ s.frame_map_) +
              (if info.evictable_ = true then 1 else 0) =
            countEvictable s.frame_map_ +
              (if info.evictable_ = true then 1 else 0) :=
          countEvictable_updateF fid
            ⟨(if s.k_ < (info.access_history_ ++ [s.current_timestamp_]).length then
                (info.access_history_ ++ [s.current_timestamp_]).tail
              else info.access_history_ ++ [s.current_timestamp_]),
             info.evictable_⟩ s.frame_map_ info hl
        have hs := hinv.size_eq
        omega
      · rw [keysOf_updateF]
        exact hinv.nodup
  · have hst : (recordAccess s fid).getD s = s := by
      simp [recordAccess, hle]
    rw [hst]
    exact hinv

theorem rinv_setEv (s : LRUKReplacer) (fid : Nat) (e : Bool) :
    RInv s → RInv ((setEvictable s fid e).getD s) := by
  intro hinv
  cases hl : lookupF fid s.frame_map_ with
  | none =>
    have hst : (setEvictable s fid e).getD s = s := by
      simp [setEvictable, hl]
    rw [hst]; exact hinv
  | some info =>
    by_cases he : info.evictable_ = e
    · have hst : (setEvictable s fid e).getD s = s := by
        simp [setEvictable, hl, he]
      rw [hst]; exact hinv
    · have hst : (setEvictable s fid e).getD s =
          { s with
            frame_map_ := updateF fid ⟨info.access_history_, e⟩ s.frame_map_,
            curr_size_ := if e then s.curr_size_ + 1 else s.curr_size_ - 1 } := by
        simp [setEvictable, hl, he]
      rw [hst]
      refine rinv_of_parts _ _ _ _ _ ?_ ?_
      · have hcu2 : countEvictable (updateF fid ⟨info.access_history_, e⟩
              s.frame_map_) + (if info.evictable_ = true then 1 else 0) =
            countEvictable s.frame_map_ + (if e = true then 1 else 0) :=
          countEvictable_updateF fid ⟨info.access_history_, e⟩
            s.frame_map_ info hl
        have hs := hinv.size_eq
        have hne : ¬ (info.evictable_ = true ∧ e = true) ∧
            ¬ (info.evictable_ = false ∧ e = false) := by
          constructor
          · rintro ⟨h1, h2⟩; rw [h1, h2] at he; exact he rfl
          · rintro ⟨h1, h2⟩; rw [h1, h2] at he; exact he rfl
        cases e <;> cases hb : info.evictable_ <;>
          simp [hb] at hcu2 hne ⊢ <;> omega
      · rw [keysOf_updateF]
        exact hinv.nodup

theorem rinv_rstep (s : LRUKReplacer) (op : ROp) : RInv s → RInv (rstep s op) := by
  intro hinv
  cases op with
  | record fid => exact rinv_record s fid hinv
  | setEv fid e => exact rinv_setEv s fid e hinv
  | remove fid =>
    cases hl : lookupF fid s.frame_map_ with
    | none =>
      have hst : rstep s (.remove fid) = s := by
        simp [rstep, removeFrame, hl]
      rw [hst]; exact hinv
    | some info =>
      by_cases he : info.evictable_ = true
      · have hst : rstep s (.remove fid) =
            { s with frame_map_ := eraseF fid s.frame_map_,
                     curr_size_ := s.curr_size_ - 1 } := by
          simp [rstep, removeFrame, hl, he]
        rw [hst]
        refine rinv_of_parts _ _ _ _ _ ?_ (nodup_keys_eraseF fid _ hinv.nodup)
        have hce := countEvictable_eraseF fid s.frame_map_ info hl
        have hs := hinv.size_eq
        rw [he] at hce
        simp only [if_true, ite_true] at hce
        omega
      · have hst : rstep s (.remove fid) = s := by
          simp [rstep, removeFrame, hl, he]
        rw [hst]; exact hinv
  | evictOp =>
    by_cases hz : s.curr_size_ = 0
    · have hst : rstep s .evictOp = s := by
        simp [rstep, evict, hz]
      rw [hst]; exact hinv
    · cases hres : evictLoop s.k_ s.frame_map_ none false (2 ^ 64 - 1) with
      | none =>
        have hev : evict s = .iterUB := by
          unfold evict; rw [if_neg hz, hres]
        have hst : rstep s .evictOp = s := by
          simp only [rstep]; rw [hev]
        rw [hst]; exact hinv
      | some fid =>
        have hev : evict s = .evicted fid
            { s with frame_map_ := eraseF fid s.frame_map_,
                     curr_size_ := s.curr_size_ - 1 } := by
          unfold evict; rw [if_neg hz, hres]
        have hst : rstep s .evictOp =
            { s with frame_map_ := eraseF fid s.frame_map_,
                     curr_size_ := s.curr_size_ - 1 } := by
          simp only [rstep]; rw [hev]
        rw [hst]
        rcases evictLoop_mem s.k_ s.frame_map_ none false _ fid hres with
          h2 | ⟨info, hm, he⟩
        · cases h2
        · have hl : lookupF fid s.frame_map_ = some info :=
            lookupF_of_mem_nodup fid info s.frame_map_ hinv.nodup hm
          refine rinv_of_parts _ _ _ _ _ ?_ (nodup_keys_eraseF fid _ hinv.nodup)
          have hce := countEvictable_eraseF fid s.frame_map_ info hl
          have hs := hinv.size_eq
          rw [he] at hce
          simp only [if_true, ite_true] at hce
          omega

theorem rinv_runOps (ops : List ROp) :
    ∀ s : LRUKReplacer, RInv s → RInv (runOps s ops) := by
  induction ops with
  | nil => intro s h; exact h
  | cons op ops ih =>
    intro s h
    exact ih (rstep s op) (rinv_rstep s op h)

/-! ## LRU-K replacer: claim theorems -/

/-- Concrete run exhibiting the `Evict` selection bug: K = 2, accesses to
frames 1, 2, 3, 1, 1, then all three frames marked evictable.  Frame 1 is
mature (history `[3, 4]`), frames 2 and 3 are infants with first-access
timestamps 1 and 2 respectively. -/
def sC1 : LRUKReplacer :=
  runOps (newReplacer 7 2)
    [.record 1, .record 2, .record 3, .record 1, .record 1,
     .setEv 1 true, .setEv 2 true, .setEv 3 true]

/-- Claim C1 (code bug): on the state `sC1` the code's `Evict` selects
frame 3, while the LRU-K rule of the specification selects frame 2 (the
evictable infant with the smallest front-of-history timestamp).  The cause
is that the scan does not refresh `max_distance` when it switches from a
mature candidate to the first infant candidate, so the stale mature
front-of-history value is used to compare subsequent infants. -/
theorem lruk_evict_bug_concrete :
    evictedFrame (evict sC1) = some 3 ∧ specEvictVictim sC1 = some 2 := by
  constructor
  · rfl
  · rfl

/-- Claim C2 (counterexample to the claim as stated): calling
`SetEvictable` on the untracked frame 3 of a fresh replacer does not return
normally; it hits the `BUSTUB_ASSERT` precondition trap (modelled as
`none`), so it is not a no-op returning normally. -/
theorem lruk_setEvictable_untracked_cex :
    setEvictable (newReplacer 7 2) 3 true = none := rfl

/-- Claim C2 (amended): for every frame id not currently tracked,
`SetEvictable` fails the `BUSTUB_ASSERT` precondition check before any
mutation (modelled as returning `none`; the replacer object itself is
untouched since the trap precedes every write). -/
theorem lruk_setEvictable_untracked_traps (s : LRUKReplacer) (fid : Nat)
    (e : Bool) (h : lookupF fid s.frame_map_ = none) :
    setEvictable s fid e = none := by
  unfold setEvictable
  rw [h]

/-- Witness for `lruk_setEvictable_untracked_traps` at a concrete input. -/
theorem lruk_setEvictable_untracked_traps_witness :
    setEvictable (newReplacer 5 3) 2 false = none :=
  lruk_setEvictable_untracked_traps (newReplacer 5 3) 2 false (by decide)

/-- Claim C3: `Remove` on a tracked, non-evictable frame fails with the
`NotEvictable` error kind (`Except.error ()`), and the throw precedes every
mutation, so the caller's state is unchanged; `Remove` on an untracked
frame is a no-op that returns the state unchanged. -/
theorem lruk_remove_spec (s : LRUKReplacer) (fid : Nat) (info : FrameInfo) :
    (lookupF fid s.frame_map_ = some info → info.evictable_ = false →
        removeFrame s fid = Except.error ()) ∧
    (lookupF fid s.frame_map_ = none → removeFrame s fid = Except.ok s) := by
  constructor
  · intro hl he
    unfold removeFrame
    rw [hl]
    simp [he]
  · intro hl
    unfold removeFrame
    rw [hl]

/-- A replacer tracking frame 1, not evictable (one recorded access). -/
def sTracked : LRUKReplacer := ⟨[(1, ⟨[0], false⟩)], 0, 1, 7, 2⟩

/-- Witness for `lruk_remove_spec` at concrete inputs exercising both
conjuncts. -/
theorem lruk_remove_spec_witness :
    removeFrame sTracked 1 = Except.error () ∧
    removeFrame (newReplacer 7 2) 3 = Except.ok (newReplacer 7 2) :=
  ⟨(lruk_remove_spec sTracked 1 ⟨[0], false⟩).1 (by decide) (by decide),
   (lruk_remove_spec (newReplacer 7 2) 3 ⟨[], false⟩).2 (by decide)⟩

/-- Claim C4: after any finite mixed sequence of `record_access`,
`set_evictable`, `remove` and `evict` operations starting from a fresh
replacer, `Size()` equals the number of tracked records whose evictable
flag is true. -/
theorem lruk_size_invariant (cap k : Nat) (ops : List ROp) :
    sizeR (runOps (newReplacer cap k) ops) =
      countEvictable (runOps (newReplacer cap k) ops).frame_map_ :=
  (rinv_runOps ops (newReplacer cap k) (rinv_new cap k)).size_eq

/-- Claim C9: if `curr_size_` equals the number of evictable records (the
replacer invariant) and is positive, the scan of `Evict` finds a candidate,
so the final dereference-and-erase of the chosen iterator never operates on
the `end()` iterator: the result is an eviction, never the undefined
behaviour path `iterUB`. -/
theorem lruk_evict_no_end_deref (s : LRUKReplacer)
    (hinv : s.curr_size_ = countEvictable s.frame_map_)
    (hpos : 0 < s.curr_size_) :
    ∃ fid t, evict s = .evicted fid t := by
  have hex : ∃ p ∈ s.frame_map_, p.2.evictable_ = true := by
    by_contra hno
    push_neg at hno
    have hz : countEvictable s.frame_map_ = 0 := by
      simp only [countEvictable, List.length_eq_zero]
      refine List.filter_eq_nil_iff.mpr ?_
      intro p hp
      simp [hno p hp]
    omega
  unfold evict
  rw [if_neg (by omega)]
  cases hres : evictLoop s.k_ s.frame_map_ none false (2 ^ 64 - 1) with
  | none => exact absurd hres (evictLoop_exists_evictable s.k_ s.frame_map_ false _ hex)
  | some fid => exact ⟨fid, _, rfl⟩

/-- Witness for `lruk_evict_no_end_deref` at a concrete state. -/
theorem lruk_evict_no_end_deref_witness :
    ∃ fid t, evict ⟨[(1, ⟨[0], true⟩)], 1, 1, 7, 2⟩ = .evicted fid t :=
  lruk_evict_no_end_deref ⟨[(1, ⟨[0], true⟩)], 1, 1, 7, 2⟩ (by decide) (by decide)

/-! ## Extendible hash table: state

Embedding of `src/container/hash/extendible_hash_table.cpp`.  Buckets are
held in a heap list `buckets_` and the directory stores bucket indices:
this models the `std::shared_ptr<Bucket>` aliasing of the source, where
several directory slots may reference the same bucket object and in-place
bucket mutation is visible through every aliased slot.  The externally
supplied `std::hash` is a parameter `hash : K → Nat`; `(1 << d) - 1`
masking is modelled as `% 2 ^ d`.  Modelled from the spec (the class
header is not among the sources): a bucket is full when it holds
`bucket_size` entries, and a bucket's local depth defaults to 0 at
construction of the table. -/
structure EBucket (K V : Type) where
  size_ : Nat
  depth_ : Nat
  list_ : List (K × V)
deriving DecidableEq

/-- State of `ExtendibleHashTable`. -/
structure EHT (K V : Type) where
  global_depth_ : Nat
  bucket_size_ : Nat
  num_buckets_ : Nat
  dir_ : List Nat
  buckets_ : List (EBucket K V)
deriving DecidableEq

section ExtendibleHashTableModel

variable {K V : Type} [DecidableEq K] (hash : K → Nat)

/-- The overwrite scan of `Bucket::Insert` (lines 159–164): replace the
value of the first entry whose key matches; `none` when no entry
matches. -/
def overwriteFirst (k : K) (v : V) : List (K × V) → Option (List (K × V))
  | [] => none
  | e :: rest =>
      if e.1 = k then some ((e.1, v) :: rest)
      else (overwriteFirst k v rest).map (e :: ·)

/-- The linear search of `Bucket::Find` (lines 136–144). -/
def bucketFindList (k : K) : List (K × V) → Option V
  | [] => none
  | e :: rest => if e.1 = k then some e.2 else bucketFindList k rest

/-- The erase scan of `Bucket::Remove` (lines 147–155); `none` when no
entry matches. -/
def eraseKeyList (k : K) : List (K × V) → Option (List (K × V))
  | [] => none
  | e :: rest =>
      if e.1 = k then some rest
      else (eraseKeyList k rest).map (e :: ·)

/-- `Bucket::Insert` (lines 158–170): overwrite on a matching key, append
when not full, otherwise fail (`none` models `return false`). -/
def EBucket.insertB (b : EBucket K V) (k : K) (v : V) : Option (EBucket K V) :=
  match overwriteFirst k v b.list_ with
  | some l => some { b with list_ := l }
  | none =>
      if b.size_ ≤ b.list_.length then none
      else some { b with list_ := b.list_ ++ [(k, v)] }

/-- `Bucket::Find`. -/
def EBucket.findB (b : EBucket K V) (k : K) : Option V := bucketFindList k b.list_

/-- `Bucket::Remove`. -/
def EBucket.removeB (b : EBucket K V) (k : K) : Option (EBucket K V) :=
  (eraseKeyList k b.list_).map (fun l => { b with list_ := l })

/-- The bucket referenced by heap index `bid` (dereferencing a directory
entry's `shared_ptr`). -/
def ehtBucketAt (s : EHT K V) (bid : Nat) : EBucket K V :=
  s.buckets_.getD bid ⟨0, 0, []⟩

/-- The directory entry at index `i` (`dir_[i]`). -/
def ehtDirAt (s : EHT K V) (i : Nat) : Nat := s.dir_.getD i 0

/-- `ExtendibleHashTable::IndexOf` (lines 31–34). -/
def ehtIndexOf (s : EHT K V) (k : K) : Nat := hash k % 2 ^ s.global_depth_

/-- `ExtendibleHashTable::ExtendibleHashTable(bucket_size)` (lines 24–28). -/
def newTable (bucket_size : Nat) : EHT K V :=
  ⟨0, bucket_size, 1, [0], [⟨bucket_size, 0, []⟩]⟩

/-- `ExtendibleHashTable::Find` (lines 70–75), returning the value. -/
def ehtFind (s : EHT K V) (k : K) : Option V :=
  (ehtBucketAt s (ehtDirAt s (ehtIndexOf hash s k))).findB k

/-- `ExtendibleHashTable::Remove` (lines 77–82). -/
def ehtRemove (s : EHT K V) (k : K) : Bool × EHT K V :=
  let bid := ehtDirAt s (ehtIndexOf hash s k)
  match (ehtBucketAt s bid).removeB k with
  | none => (false, s)
  | some b2 => (true, { s with buckets_ := s.buckets_.set bid b2 })

/-- The entry walk of `RedistributeBucket` (lines 113–121): traverse the
overflowing bucket's list front to back; an entry whose `depth`-bit
signature equals `prev` stays, otherwise it is inserted into the sibling
bucket `p` and erased from the list.  As in the source, the result of
`p->Insert` is ignored (an insertion that failed would drop the entry). -/
def moveEntries (depth prev : Nat) :
    List (K × V) → EBucket K V → List (K × V) × EBucket K V
  | [], p => ([], p)
  | e :: rest, p =>
      if hash e.1 % 2 ^ depth = prev then
        let r := moveEntries depth prev rest p
        (e :: r.1, r.2)
      else moveEntries depth prev rest ((p.insertB e.1 e.2).getD p)

/-- `ExtendibleHashTable::RedistributeBucket` (lines 107–127), called on
the heap index of the bucket whose depth was just incremented.  The `[]`
branch is unreachable from reachable states (the bucket is full and
`bucket_size ≥ 1`); the source would call `front()` on an empty list
there. -/
def redistributeBucket (s : EHT K V) (bid : Nat) : EHT K V :=
  let b := ehtBucketAt s bid
  let depth := b.depth_
  let newId := s.buckets_.length
  match b.list_ with
  | [] => s
  | e0 :: _ =>
      let prev := hash e0.1 % 2 ^ (depth - 1)
      let r := moveEntries hash depth prev b.list_ ⟨s.bucket_size_, depth, []⟩
      { s with
        num_buckets_ := s.num_buckets_ + 1,
        buckets_ := (s.buckets_.set bid { b with list_ := r.1 }) ++ [r.2],
        dir_ := (List.range s.dir_.length).map (fun i =>
            if i % 2 ^ (depth - 1) = prev ∧ ¬ i % 2 ^ depth = prev then newId
            else s.dir_.getD i 0) }

/-- One iteration of the `while (true)` loop of `Insert` (lines 87–104):
`Sum.inl` is the successful return, `Sum.inr` continues with the state
after a split or a directory doubling. -/
def ehtInsertStep (s : EHT K V) (k : K) (v : V) : EHT K V ⊕ EHT K V :=
  let idx := ehtIndexOf hash s k
  let bid := ehtDirAt s idx
  let b := ehtBucketAt s bid
  match b.insertB k v with
  | some b2 => Sum.inl { s with buckets_ := s.buckets_.set bid b2 }
  | none =>
      if b.depth_ < s.global_depth_ then
        Sum.inr (redistributeBucket hash
          { s with buckets_ := s.buckets_.set bid { b with depth_ := b.depth_ + 1 } }
          bid)
      else
        Sum.inr { s with dir_ := s.dir_ ++ s.dir_,
                         global_depth_ := s.global_depth_ + 1 }

/-- `ExtendibleHashTable::Insert`, fuelled: the source's loop has no bound
(see C8), so the embedding iterates the loop body at most `fuel` times and
returns `none` if no iteration returned. -/
def ehtInsertFuel : Nat → EHT K V → K → V → Option (EHT K V)
  | 0, _, _, _ => none
  | fuel + 1, s, k, v =>
      match ehtInsertStep hash s k v with
      | Sum.inl t => some t
      | Sum.inr t => ehtInsertFuel fuel t k v

/-- All entries stored in the table's heap buckets. -/
def entriesOf (s : EHT K V) : List (K × V) :=
  (s.buckets_.map EBucket.list_).flatten

/-- Table states reachable from a fresh table (with `bucket_size ≥ 1`, as
the spec's constructor contract requires) by terminating inserts and by
removes; `Find` does not change the state. -/
inductive EReach : EHT K V → Prop where
  | init (n : Nat) (h : 1 ≤ n) : EReach (newTable n)
  | insert (s : EHT K V) (k : K) (v : V) (fuel : Nat) (t : EHT K V) :
      EReach s → ehtInsertFuel hash fuel s k v = some t → EReach t
  | remove (s : EHT K V) (k : K) :
      EReach s → EReach (ehtRemove hash s k).2

/-- The representation invariant of the extendible hash table. -/
structure TableInv (s : EHT K V) : Prop where
  cap_pos : 1 ≤ s.bucket_size_
  dir_len : s.dir_.length = 2 ^ s.global_depth_
  ids_lt : ∀ x ∈ s.dir_, x < s.buckets_.length
  bsize : ∀ b ∈ s.buckets_, b.size_ = s.bucket_size_
  blen : ∀ b ∈ s.buckets_, b.list_.length ≤ b.size_
  bnodup : ∀ b ∈ s.buckets_, (b.list_.map Prod.fst).Nodup
  depth_le : ∀ i < s.dir_.length, (ehtBucketAt s (ehtDirAt s i)).depth_ ≤ s.global_depth_
  sig : ∀ i < s.dir_.length, ∀ x ∈ (ehtBucketAt s (ehtDirAt s i)).list_.map Prod.fst,
      hash x % 2 ^ (ehtBucketAt s (ehtDirAt s i)).depth_ =
        i % 2 ^ (ehtBucketAt s (ehtDirAt s i)).depth_
  alias_iff : ∀ i < s.dir_.length, ∀ j < s.dir_.length,
      (ehtDirAt s i = ehtDirAt s j ↔
        i % 2 ^ (ehtBucketAt s (ehtDirAt s i)).depth_ =
          j % 2 ^ (ehtBucketAt s (ehtDirAt s i)).depth_)

end ExtendibleHashTableModel

/-! ## Generic list and arithmetic lemmas -/

theorem getD_map_range {α : Type} (f : Nat → α) (n i : Nat) (d : α)
    (h : i < n) : ((List.range n).map f).getD i d = f i := by
  rw [List.getD_eq_getElem?_getD, List.getElem?_map, List.getElem?_range h]
  rfl

theorem getD_append_lt {α : Type} (l1 l2 : List α) (i : Nat) (d : α)
    (h : i < l1.length) : (l1 ++ l2).getD i d = l1.getD i d := by
  rw [List.getD_eq_getElem?_getD, List.getElem?_append_left h,
    List.getD_eq_getElem?_getD]

theorem getD_append_ge {α : Type} (l1 l2 : List α) (i : Nat) (d : α)
    (h : l1.length ≤ i) : (l1 ++ l2).getD i d = l2.getD (i - l1.length) d := by
  rw [List.getD_eq_getElem?_getD, List.getElem?_append_right h,
    List.getD_eq_getElem?_getD]

theorem getD_set_self {α : Type} (l : List α) (i : Nat) (a d : α)
    (h : i < l.length) : (l.set i a).getD i d = a := by
  rw [List.getD_eq_getElem?_getD, List.getElem?_set_self h]
  rfl

theorem getD_set_ne {α : Type} (l : List α) (i j : Nat) (a d : α)
    (h : i ≠ j) : (l.set i a).getD j d = l.getD j d := by
  rw [List.getD_eq_getElem?_getD, List.getElem?_set_ne h,
    List.getD_eq_getElem?_getD]

theorem getD_mem {α : Type} (l : List α) (i : Nat) (d : α)
    (h : i < l.length) : l.getD i d ∈ l := by
  have h2 : l.getD i d = l[i] := List.getD_eq_getElem l d h
  rw [h2]
  exact List.getElem_mem h

theorem countP_filter_not_add {α : Type} (q p : α → Bool) (l : List α) :
    List.countP q l =
      List.countP q (l.filter p) + List.countP q (l.filter (fun a => ! p a)) := by
  induction l with
  | nil => rfl
  | cons a l ih =>
    by_cases hp : p a = true
    · rw [List.filter_cons_of_pos hp, List.filter_cons_of_neg (by simp [hp]),
        List.countP_cons, List.countP_cons, ih]
      omega
    · rw [List.filter_cons_of_neg hp, List.filter_cons_of_pos (by simp [hp]),
        List.countP_cons, List.countP_cons, ih]
      omega

theorem countP_flatten_le_of_mem {α : Type} (p : α → Bool) :
    ∀ (L : List (List α)) (x : List α), x ∈ L →
      List.countP p x ≤ List.countP p L.flatten := by
  intro L
  induction L with
  | nil => intro x h; simp at h
  | cons y L ih =>
    intro x h
    rw [List.flatten_cons, List.countP_append]
    rcases List.mem_cons.mp h with rfl | h2
    · omega
    · have := ih x h2
      omega

theorem countP_flatten_set {α : Type} (p : α → Bool) :
    ∀ (L : List (List α)) (i : Nat) (a : List α), i < L.length →
      List.countP p ((L.set i a).flatten) + List.countP p (L.getD i []) =
        List.countP p L.flatten + List.countP p a := by
  intro L
  induction L with
  | nil => intro i a h; simp at h
  | cons y L ih =>
    intro i a h
    cases i with
    | zero =>
      rw [List.set_cons_zero, List.flatten_cons, List.flatten_cons,
        List.countP_append, List.countP_append, List.getD_cons_zero]
      omega
    | succ i =>
      have hi : i < L.length := by simpa using h
      have hih := ih i a hi
      rw [List.set_cons_succ, List.flatten_cons, List.flatten_cons,
        List.countP_append, List.countP_append, List.getD_cons_succ]
      omega

theorem count_eq_countP_range (x : Nat) :
    ∀ l : List Nat, l.count x =
      List.countP (fun j => decide (l.getD j 0 = x)) (List.range l.length) := by
  intro l
  induction l with
  | nil => rfl
  | cons a l ih =>
    rw [List.count_cons, List.length_cons, List.range_succ_eq_map,
      List.countP_cons, List.countP_map]
    have hcomp : List.countP ((fun j => decide ((a :: l).getD j 0 = x)) ∘ Nat.succ)
        (List.range l.length) =
        List.countP (fun j => decide (l.getD j 0 = x)) (List.range l.length) := by
      apply List.countP_congr
      intro j hj
      simp [Function.comp, List.getD_cons_succ]
    rw [hcomp, ← ih]
    simp [List.getD_cons_zero, beq_iff_eq]

theorem countP_range_eq_single (r : Nat) :
    ∀ m : Nat, List.countP (fun x => decide (x = r)) (List.range m) =
      if r < m then 1 else 0 := by
  intro m
  induction m with
  | zero => simp
  | succ m ih =>
    rw [List.range_succ, List.countP_append, ih]
    have hsing : List.countP (fun x => decide (x = r)) [m] =
        if m = r then 1 else 0 := by
      simp [List.countP_cons]
    rw [hsing]
    by_cases h1 : r < m
    · rw [if_pos h1, if_neg (by omega), if_pos (by omega)]
    · by_cases h2 : m = r
      · rw [if_neg h1, if_pos h2, if_pos (by omega)]
      · rw [if_neg h1, if_neg h2, if_neg (by omega)]

theorem countP_range_mod_block (m r : Nat) (hr : r < m) :
    ∀ q : Nat, List.countP (fun j => decide (j % m = r)) (List.range (m * q)) = q := by
  intro q
  induction q with
  | zero => simp
  | succ q ih =>
    have hq : m * (q + 1) = m * q + m := by ring
    rw [hq, List.range_add, List.countP_append, ih, List.countP_map]
    have hcong : List.countP ((fun j => decide (j % m = r)) ∘ (fun x => m * q + x))
        (List.range m) = List.countP (fun x => decide (x = r)) (List.range m) := by
      apply List.countP_congr
      intro x hx
      have hxm : x < m := List.mem_range.mp hx
      have h1 : (m * q + x) % m = x := by
        rw [Nat.add_comm, Nat.add_mul_mod_self_left, Nat.mod_eq_of_lt hxm]
      simp [Function.comp, h1]
    rw [hcong, countP_range_eq_single, if_pos hr]

theorem count_slots_mod (g d r : Nat) (hd : d ≤ g) (hr : r < 2 ^ d) :
    List.countP (fun j => decide (j % 2 ^ d = r)) (List.range (2 ^ g)) =
      2 ^ (g - d) := by
  have h : 2 ^ g = 2 ^ d * 2 ^ (g - d) := by
    rw [← pow_add]
    congr 1
    omega
  rw [h, countP_range_mod_block (2 ^ d) r hr]

theorem mod_pow_mod (a d g : Nat) (h : d ≤ g) : a % 2 ^ g % 2 ^ d = a % 2 ^ d :=
  Nat.mod_mod_of_dvd a (pow_dvd_pow 2 h)

theorem mod_pow_succ_dichotomy (x m : Nat) :
    x % 2 ^ (m + 1) = x % 2 ^ m ∨ x % 2 ^ (m + 1) = x % 2 ^ m + 2 ^ m := by
  have hpos : 0 < 2 ^ m := pow_pos (by norm_num) m
  have hlt : x % 2 ^ (m + 1) < 2 * 2 ^ m := by
    have h1 : x % 2 ^ (m + 1) < 2 ^ (m + 1) := Nat.mod_lt x (by positivity)
    rw [pow_succ] at h1
    omega
  have hdm := Nat.mod_add_div (x % 2 ^ (m + 1)) (2 ^ m)
  have hmm : x % 2 ^ (m + 1) % 2 ^ m = x % 2 ^ m :=
    Nat.mod_mod_of_dvd x (pow_dvd_pow 2 (by omega))
  have hq : x % 2 ^ (m + 1) / 2 ^ m = 0 ∨ x % 2 ^ (m + 1) / 2 ^ m = 1 := by
    have h2 : x % 2 ^ (m + 1) / 2 ^ m < 2 := (Nat.div_lt_iff_lt_mul hpos).mpr hlt
    revert h2
    generalize x % 2 ^ (m + 1) / 2 ^ m = t
    intro h2
    omega
  rcases hq with h0 | h1
  · left
    rw [h0, Nat.mul_zero, Nat.add_zero] at hdm
    rw [← hdm, hmm]
  · right
    rw [h1, Nat.mul_one] at hdm
    rw [← hdm, hmm, Nat.add_comm]

/-! ## Bucket operation lemmas -/

section BucketLemmas

variable {K V : Type} [DecidableEq K]

theorem overwriteFirst_none_iff (k : K) (v : V) :
    ∀ l : List (K × V), overwriteFirst k v l = none ↔ ∀ e ∈ l, e.1 ≠ k := by
  intro l
  induction l with
  | nil => simp [overwriteFirst]
  | cons e rest ih =>
    by_cases he : e.1 = k
    · simp only [overwriteFirst, he, if_pos]
      simp only [ite_true, reduceCtorEq, false_iff]
      intro hall
      exact hall e (List.mem_cons_self e rest) he
    · simp only [overwriteFirst, he, ite_false]
      rw [Option.map_eq_none', ih, List.forall_mem_cons]
      simp [he]

theorem overwriteFirst_some_keys (k : K) (v : V) :
    ∀ (l l2 : List (K × V)), overwriteFirst k v l = some l2 →
      l2.map Prod.fst = l.map Prod.fst ∧ l2.length = l.length := by
  intro l
  induction l with
  | nil => intro l2 h; simp [overwriteFirst] at h
  | cons e rest ih =>
    intro l2 h
    by_cases he : e.1 = k
    · simp only [overwriteFirst, he, ite_true, Option.some.injEq] at h
      subst h
      simp [he]
    · simp only [overwriteFirst, he, ite_false] at h
      cases hrec : overwriteFirst k v rest with
      | none => rw [hrec] at h; cases h
      | some l3 =>
        rw [hrec] at h
        simp only [Option.map_some', Option.some.injEq] at h
        subst h
        have hih := ih l3 hrec
        simp [hih.1, hih.2]

theorem bucketFindList_overwrite_self (k : K) (v : V) :
    ∀ (l l2 : List (K × V)), overwriteFirst k v l = some l2 →
      bucketFindList k l2 = some v := by
  intro l
  induction l with
  | nil => intro l2 h; simp [overwriteFirst] at h
  | cons e rest ih =>
    intro l2 h
    by_cases he : e.1 = k
    · simp only [overwriteFirst, he, ite_true, Option.some.injEq] at h
      subst h
      simp [bucketFindList, he]
    · simp only [overwriteFirst, he, ite_false] at h
      cases hrec : overwriteFirst k v rest with
      | none => rw [hrec] at h; cases h
      | some l3 =>
        rw [hrec] at h
        simp only [Option.map_some', Option.some.injEq] at h
        subst h
        simp only [bucketFindList, he, ite_false]
        exact ih l3 hrec

theorem bucketFindList_overwrite_ne (k q : K) (v : V) (hne : q ≠ k) :
    ∀ (l l2 : List (K × V)), overwriteFirst k v l = some l2 →
      bucketFindList q l2 = bucketFindList q l := by
  intro l
  induction l with
  | nil => intro l2 h; simp [overwriteFirst] at h
  | cons e rest ih =>
    intro l2 h
    by_cases he : e.1 = k
    · simp only [overwriteFirst, he, ite_true, Option.some.injEq] at h
      subst h
      have heq : ¬ e.1 = q := by
        rw [he]
        exact fun h2 => hne h2.symm
      have hkq : ¬ k = q := fun h2 => hne h2.symm
      simp [bucketFindList, heq, hkq]
    · simp only [overwriteFirst, he, ite_false] at h
      cases hrec : overwriteFirst k v rest with
      | none => rw [hrec] at h; cases h
      | some l3 =>
        rw [hrec] at h
        simp only [Option.map_some', Option.some.injEq] at h
        subst h
        by_cases heq : e.1 = q
        · simp [bucketFindList, heq]
        · simp only [bucketFindList, heq, ite_false]
          exact ih l3 hrec

theorem overwriteFirst_isSome (k : K) (v w : V) :
    ∀ l : List (K × V), bucketFindList k l = some w →
      ∃ l2, overwriteFirst k v l = some l2 := by
  intro l
  induction l with
  | nil => intro h; simp [bucketFindList] at h
  | cons e rest ih =>
    intro h
    by_cases he : e.1 = k
    · exact ⟨(e.1, v) :: rest, by simp [overwriteFirst, he]⟩
    · simp only [bucketFindList, he, ite_false] at h
      rcases ih h with ⟨l3, hl3⟩
      exact ⟨e :: l3, by simp [overwriteFirst, he, hl3]⟩

theorem bucketFindList_append_self (k : K) (v : V) :
    ∀ l : List (K × V), (∀ e ∈ l, e.1 ≠ k) →
      bucketFindList k (l ++ [(k, v)]) = some v := by
  intro l
  induction l with
  | nil => simp [bucketFindList]
  | cons e rest ih =>
    intro hall
    have he : ¬ e.1 = k := hall e (List.mem_cons_self e rest)
    simp only [List.cons_append, bucketFindList, he, ite_false]
    exact ih (fun e2 h2 => hall e2 (List.mem_cons_of_mem e h2))

theorem bucketFindList_append_ne (k q : K) (v : V) (hne : q ≠ k) :
    ∀ l : List (K × V),
      bucketFindList q (l ++ [(k, v)]) = bucketFindList q l := by
  intro l
  induction l with
  | nil =>
    have : ¬ k = q := fun h => hne h.symm
    simp [bucketFindList, this]
  | cons e rest ih =>
    by_cases he : e.1 = q
    · simp [bucketFindList, he]
    · simp only [List.cons_append, bucketFindList, he, ite_false]
      exact ih

theorem bucketFindList_filter (q : K) (p : K × V → Bool) :
    ∀ l : List (K × V), (∀ e ∈ l, e.1 = q → p e = true) →
      bucketFindList q (l.filter p) = bucketFindList q l := by
  intro l
  induction l with
  | nil => intro hyp; rfl
  | cons e rest ih =>
    intro hyp
    by_cases hpe : p e = true
    · rw [List.filter_cons_of_pos hpe]
      by_cases he : e.1 = q
      · simp [bucketFindList, he]
      · simp only [bucketFindList, he, ite_false]
        exact ih (fun e2 h2 => hyp e2 (List.mem_cons_of_mem e h2))
    · rw [List.filter_cons_of_neg hpe]
      have he : ¬ e.1 = q := by
        intro he
        exact hpe (hyp e (List.mem_cons_self e rest) he)
      simp only [bucketFindList, he, ite_false]
      exact ih (fun e2 h2 => hyp e2 (List.mem_cons_of_mem e h2))

theorem bucketFindList_none_iff (q : K) :
    ∀ l : List (K × V), bucketFindList q l = none ↔ ∀ e ∈ l, e.1 ≠ q := by
  intro l
  induction l with
  | nil => simp [bucketFindList]
  | cons e rest ih =>
    by_cases he : e.1 = q
    · simp only [bucketFindList, he, ite_true, reduceCtorEq, false_iff]
      intro hall
      exact hall e (List.mem_cons_self e rest) he
    · simp only [bucketFindList, he, ite_false]
      rw [ih, List.forall_mem_cons]
      simp [he]

theorem eraseKeyList_sublist (k : K) :
    ∀ (l l2 : List (K × V)), eraseKeyList k l = some l2 → List.Sublist l2 l := by
  intro l
  induction l with
  | nil => intro l2 h; simp [eraseKeyList] at h
  | cons e rest ih =>
    intro l2 h
    by_cases he : e.1 = k
    · simp only [eraseKeyList, he, ite_true, Option.some.injEq] at h
      subst h
      exact List.sublist_cons_self e rest
    · simp only [eraseKeyList, he, ite_false] at h
      cases hrec : eraseKeyList k rest with
      | none => rw [hrec] at h; cases h
      | some l3 =>
        rw [hrec] at h
        simp only [Option.map_some', Option.some.injEq] at h
        subst h
        exact List.Sublist.cons₂ e (ih l3 hrec)

theorem insertB_none_iff (b : EBucket K V) (k : K) (v : V) :
    b.insertB k v = none ↔
      overwriteFirst k v b.list_ = none ∧ b.size_ ≤ b.list_.length := by
  unfold EBucket.insertB
  cases h : overwriteFirst k v b.list_ with
  | some l => simp
  | none => by_cases hf : b.size_ ≤ b.list_.length <;> simp [hf]

theorem insertB_some_cases (b : EBucket K V) (k : K) (v : V) (b2 : EBucket K V) :
    b.insertB k v = some b2 →
      (∃ l2, overwriteFirst k v b.list_ = some l2 ∧
        b2 = ⟨b.size_, b.depth_, l2⟩) ∨
      (overwriteFirst k v b.list_ = none ∧ b.list_.length < b.size_ ∧
        b2 = ⟨b.size_, b.depth_, b.list_ ++ [(k, v)]⟩) := by
  unfold EBucket.insertB
  cases h : overwriteFirst k v b.list_ with
  | some l =>
    intro h2
    simp only [Option.some.injEq] at h2
    exact Or.inl ⟨l, rfl, h2.symm⟩
  | none =>
    intro h2
    by_cases hf : b.size_ ≤ b.list_.length
    · rw [if_pos hf] at h2; cases h2
    · rw [if_neg hf] at h2
      simp only [Option.some.injEq] at h2
      exact Or.inr ⟨rfl, by omega, h2.symm⟩

theorem insertB_findB_self (b : EBucket K V) (k : K) (v : V) (b2 : EBucket K V)
    (h : b.insertB k v = some b2) : b2.findB k = some v := by
  rcases insertB_some_cases b k v b2 h with ⟨l2, hov, rfl⟩ | ⟨hov, _, rfl⟩
  · exact bucketFindList_overwrite_self k v b.list_ l2 hov
  · exact bucketFindList_append_self k v b.list_
      ((overwriteFirst_none_iff k v b.list_).mp hov)

theorem insertB_findB_ne (b : EBucket K V) (k q : K) (v : V) (b2 : EBucket K V)
    (hne : q ≠ k) (h : b.insertB k v = some b2) : b2.findB q = b.findB q := by
  rcases insertB_some_cases b k v b2 h with ⟨l2, hov, rfl⟩ | ⟨_, _, rfl⟩
  · exact bucketFindList_overwrite_ne k q v hne b.list_ l2 hov
  · exact bucketFindList_append_ne k q v hne b.list_

theorem insertB_props (b : EBucket K V) (k : K) (v : V) (b2 : EBucket K V)
    (h : b.insertB k v = some b2) :
    b2.size_ = b.size_ ∧ b2.depth_ = b.depth_ ∧
    (b.list_.length ≤ b.size_ → b2.list_.length ≤ b.size_) ∧
    ((b.list_.map Prod.fst).Nodup → (b2.list_.map Prod.fst).Nodup) ∧
    (∀ x ∈ b2.list_.map Prod.fst, x ∈ b.list_.map Prod.fst ∨ x = k) := by
  rcases insertB_some_cases b k v b2 h with ⟨l2, hov, rfl⟩ | ⟨hov, hlt, rfl⟩
  · have hk := overwriteFirst_some_keys k v b.list_ l2 hov
    refine ⟨rfl, rfl, ?_, ?_, ?_⟩
    · intro hle
      simpa [hk.2] using hle
    · intro hnd
      simpa [hk.1] using hnd
    · intro x hx
      rw [hk.1] at hx
      exact Or.inl hx
  · have hknot : ∀ e ∈ b.list_, e.1 ≠ k :=
      (overwriteFirst_none_iff k v b.list_).mp hov
    refine ⟨rfl, rfl, ?_, ?_, ?_⟩
    · intro hle
      simp only [List.length_append, List.length_cons, List.length_nil]
      omega
    · intro hnd
      simp only [List.map_append, List.map_cons, List.map_nil]
      refine List.Nodup.append hnd (List.nodup_singleton k) ?_
      intro x hx hx2
      simp only [List.mem_singleton] at hx2
      subst hx2
      rcases List.mem_map.mp hx with ⟨e, he, hke⟩
      exact hknot e he hke
    · intro x hx
      simp only [List.map_append, List.map_cons, List.map_nil,
        List.mem_append, List.mem_singleton] at hx
      rcases hx with hx | hx
      · exact Or.inl hx
      · exact Or.inr hx

theorem removeB_props (b : EBucket K V) (k : K) (b2 : EBucket K V)
    (h : b.removeB k = some b2) :
    b2.size_ = b.size_ ∧ b2.depth_ = b.depth_ ∧ List.Sublist b2.list_ b.list_ := by
  unfold EBucket.removeB at h
  cases hrec : eraseKeyList k b.list_ with
  | none => rw [hrec] at h; cases h
  | some l2 =>
    rw [hrec] at h
    simp only [Option.map_some', Option.some.injEq] at h
    subst h
    exact ⟨rfl, rfl, eraseKeyList_sublist k b.list_ l2 hrec⟩

end BucketLemmas

/-! ## Split-step machinery -/

section SplitLemmas

variable {K V : Type} [DecidableEq K] (hash : K → Nat)

theorem moveEntries_spec (d prev cap dep : Nat) :
    ∀ (l acc : List (K × V)),
      (l.map Prod.fst).Nodup →
      (∀ e ∈ l, e.1 ∉ acc.map Prod.fst) →
      acc.length + l.length ≤ cap →
      moveEntries hash d prev l ⟨cap, dep, acc⟩ =
        (l.filter (fun e => decide (hash e.1 % 2 ^ d = prev)),
         ⟨cap, dep, acc ++ l.filter (fun e => ! decide (hash e.1 % 2 ^ d = prev))⟩) := by
  intro l
  induction l with
  | nil => intro acc _ _ _; simp [moveEntries]
  | cons e rest ih =>
    intro acc hnd hdisj hlen
    have hnd0 : e.1 ∉ rest.map Prod.fst ∧ (rest.map Prod.fst).Nodup := by
      simpa using hnd
    by_cases hp : hash e.1 % 2 ^ d = prev
    · simp only [moveEntries, if_pos hp]
      rw [ih acc hnd0.2 (fun e2 h2 => hdisj e2 (List.mem_cons_of_mem e h2))
        (by simp only [List.length_cons] at hlen; omega)]
      simp [List.filter_cons, hp]
    · have hnotin : e.1 ∉ acc.map Prod.fst := hdisj e (List.mem_cons_self e rest)
      have hov : overwriteFirst e.1 e.2 acc = none := by
        refine (overwriteFirst_none_iff e.1 e.2 acc).mpr ?_
        intro a ha h2
        exact hnotin (h2 ▸ List.mem_map_of_mem Prod.fst ha)
      have hfull : ¬ cap ≤ acc.length := by
        simp only [List.length_cons] at hlen
        omega
      have hins : (⟨cap, dep, acc⟩ : EBucket K V).insertB e.1 e.2 =
          some ⟨cap, dep, acc ++ [e]⟩ := by
        simp [EBucket.insertB, hov, hfull]
      have hdisj2 : ∀ e2 ∈ rest, e2.1 ∉ (acc ++ [e]).map Prod.fst := by
        intro e2 h2
        simp only [List.map_append, List.map_cons, List.map_nil, List.mem_append,
          List.mem_singleton]
        rintro (h3 | h3)
        · exact hdisj e2 (List.mem_cons_of_mem e h2) h3
        · exact hnd0.1 (h3 ▸ List.mem_map_of_mem Prod.fst h2)
      simp only [moveEntries, if_neg hp]
      rw [hins]
      simp only [Option.getD_some]
      rw [ih (acc ++ [e]) hnd0.2 hdisj2
        (by simp only [List.length_append, List.length_cons, List.length_nil,
              List.length_cons] at hlen ⊢; omega)]
      simp [List.filter_cons, hp]

/-- The directory slot of `k`'s bucket. -/
def targetBid (s : EHT K V) (k : K) : Nat := ehtDirAt s (ehtIndexOf hash s k)

/-- The bucket `Insert` targets for key `k`. -/
def targetBucket (s : EHT K V) (k : K) : EBucket K V :=
  ehtBucketAt s (targetBid hash s k)

/-- The local depth of the bucket `Insert` targets for key `k`. -/
def targetDepth (s : EHT K V) (k : K) : Nat := (targetBucket hash s k).depth_

/-- The home signature of a split triggered by inserting `k`. -/
def splitPrev (s : EHT K V) (k : K) : Nat :=
  ehtIndexOf hash s k % 2 ^ targetDepth hash s k

/-- Entries kept by the split bucket. -/
def splitKept (s : EHT K V) (k : K) : List (K × V) :=
  (targetBucket hash s k).list_.filter (fun e =>
    decide (hash e.1 % 2 ^ (targetDepth hash s k + 1) = splitPrev hash s k))

/-- Entries moved to the sibling bucket by the split. -/
def splitMoved (s : EHT K V) (k : K) : List (K × V) :=
  (targetBucket hash s k).list_.filter (fun e =>
    ! decide (hash e.1 % 2 ^ (targetDepth hash s k + 1) = splitPrev hash s k))

/-- The state after the split branch of one `Insert` iteration (local depth
increment of the full bucket followed by `RedistributeBucket`). -/
def splitState (s : EHT K V) (bid d0 prev newId : Nat)
    (kept moved : List (K × V)) : EHT K V :=
  { s with
    num_buckets_ := s.num_buckets_ + 1,
    buckets_ := (s.buckets_.set bid ⟨(ehtBucketAt s bid).size_, d0 + 1, kept⟩) ++
      [⟨s.bucket_size_, d0 + 1, moved⟩],
    dir_ := (List.range s.dir_.length).map (fun i =>
      if i % 2 ^ d0 = prev ∧ ¬ i % 2 ^ (d0 + 1) = prev then newId
      else s.dir_.getD i 0) }

end SplitLemmas

section StepLemmas

variable {K V : Type} [DecidableEq K] (hash : K → Nat)

theorem bucketAt_mem (s : EHT K V) (bid : Nat) (h : bid < s.buckets_.length) :
    ehtBucketAt s bid ∈ s.buckets_ :=
  getD_mem s.buckets_ bid ⟨0, 0, []⟩ h

theorem tinv_idx_lt (s : EHT K V) (hInv : TableInv hash s) (k : K) :
    ehtIndexOf hash s k < s.dir_.length := by
  rw [hInv.dir_len]
  exact Nat.mod_lt _ (pow_pos (by norm_num) _)

theorem tinv_bid_lt (s : EHT K V) (hInv : TableInv hash s) (k : K) :
    targetBid hash s k < s.buckets_.length :=
  hInv.ids_lt _ (getD_mem s.dir_ _ 0 (tinv_idx_lt hash s hInv k))

theorem tinv_target_mem (s : EHT K V) (hInv : TableInv hash s) (k : K) :
    targetBucket hash s k ∈ s.buckets_ :=
  bucketAt_mem s _ (tinv_bid_lt hash s hInv k)

theorem redistribute_eq (s : EHT K V) (bid : Nat) (e0 : K × V)
    (rest : List (K × V)) (hbid : bid < s.buckets_.length)
    (hl : (ehtBucketAt s bid).list_ = e0 :: rest)
    (hnd : ((ehtBucketAt s bid).list_.map Prod.fst).Nodup)
    (hlen : (ehtBucketAt s bid).list_.length ≤ s.bucket_size_) :
    redistributeBucket hash s bid =
      { s with
        num_buckets_ := s.num_buckets_ + 1,
        buckets_ := (s.buckets_.set bid
            ⟨(ehtBucketAt s bid).size_, (ehtBucketAt s bid).depth_,
              (ehtBucketAt s bid).list_.filter (fun e =>
                decide (hash e.1 % 2 ^ (ehtBucketAt s bid).depth_ =
                  hash e0.1 % 2 ^ ((ehtBucketAt s bid).depth_ - 1)))⟩) ++
          [⟨s.bucket_size_, (ehtBucketAt s bid).depth_,
            (ehtBucketAt s bid).list_.filter (fun e =>
              ! decide (hash e.1 % 2 ^ (ehtBucketAt s bid).depth_ =
                hash e0.1 % 2 ^ ((ehtBucketAt s bid).depth_ - 1)))⟩],
        dir_ := (List.range s.dir_.length).map (fun i =>
          if i % 2 ^ ((ehtBucketAt s bid).depth_ - 1) =
                hash e0.1 % 2 ^ ((ehtBucketAt s bid).depth_ - 1) ∧
              ¬ i % 2 ^ (ehtBucketAt s bid).depth_ =
                hash e0.1 % 2 ^ ((ehtBucketAt s bid).depth_ - 1)
          then s.buckets_.length else s.dir_.getD i 0) } := by
  have hmv := moveEntries_spec hash (ehtBucketAt s bid).depth_
    (hash e0.1 % 2 ^ ((ehtBucketAt s bid).depth_ - 1)) s.bucket_size_
    (ehtBucketAt s bid).depth_ (ehtBucketAt s bid).list_ [] hnd
    (by intro e h; simp) (by simpa using hlen)
  simp only [redistributeBucket]
  rw [hl] at hmv ⊢
  simp only []
  rw [hmv]
  simp

theorem ehtInsertStep_of_fail (s : EHT K V) (k : K) (v : V)
    (h : (targetBucket hash s k).insertB k v = none) :
    ehtInsertStep hash s k v =
      if (targetBucket hash s k).depth_ < s.global_depth_ then
        Sum.inr (redistributeBucket hash
          { s with buckets_ := (s.buckets_.set (targetBid hash s k)
              ⟨(targetBucket hash s k).size_, (targetBucket hash s k).depth_ + 1,
                (targetBucket hash s k).list_⟩) } (targetBid hash s k))
      else Sum.inr { s with dir_ := s.dir_ ++ s.dir_,
                            global_depth_ := s.global_depth_ + 1 } := by
  have h2 : (ehtBucketAt s (ehtDirAt s (ehtIndexOf hash s k))).insertB k v = none := h
  simp only [ehtInsertStep]
  rw [h2]
  rfl

theorem ehtInsertStep_of_some (s : EHT K V) (k : K) (v : V) (b2 : EBucket K V)
    (h : (targetBucket hash s k).insertB k v = some b2) :
    ehtInsertStep hash s k v =
      Sum.inl { s with buckets_ := s.buckets_.set (targetBid hash s k) b2 } := by
  have h2 : (ehtBucketAt s (ehtDirAt s (ehtIndexOf hash s k))).insertB k v = some b2 := h
  simp only [ehtInsertStep]
  rw [h2]
  rfl

theorem target_full_facts (s : EHT K V) (k : K) (v : V) (hInv : TableInv hash s)
    (hfail : (targetBucket hash s k).insertB k v = none) :
    (targetBucket hash s k).list_.length = s.bucket_size_ ∧
    (targetBucket hash s k).list_ ≠ [] := by
  have hmem := tinv_target_mem hash s hInv k
  have hcap : (targetBucket hash s k).size_ = s.bucket_size_ := hInv.bsize _ hmem
  have hlen : (targetBucket hash s k).list_.length ≤ (targetBucket hash s k).size_ :=
    hInv.blen _ hmem
  have hfull := (insertB_none_iff (targetBucket hash s k) k v).mp hfail
  have h1 : (targetBucket hash s k).list_.length = s.bucket_size_ := by omega
  refine ⟨h1, ?_⟩
  intro h0
  rw [h0] at h1
  have := hInv.cap_pos
  simp at h1
  omega

theorem insertStep_split (s : EHT K V) (k : K) (v : V) (hInv : TableInv hash s)
    (hfail : (targetBucket hash s k).insertB k v = none)
    (hlt : (targetBucket hash s k).depth_ < s.global_depth_) :
    ehtInsertStep hash s k v =
      Sum.inr (splitState s (targetBid hash s k) (targetDepth hash s k)
        (splitPrev hash s k) s.buckets_.length
        (splitKept hash s k) (splitMoved hash s k)) := by
  have hbid : targetBid hash s k < s.buckets_.length := tinv_bid_lt hash s hInv k
  obtain ⟨e0, rest, hl⟩ : ∃ e0 rest, (targetBucket hash s k).list_ = e0 :: rest := by
    rcases target_full_facts hash s k v hInv hfail with ⟨_, hne⟩
    cases hb2 : (targetBucket hash s k).list_ with
    | nil => exact absurd hb2 hne
    | cons x xs => exact ⟨x, xs, rfl⟩
  have he0mem : e0 ∈ (targetBucket hash s k).list_ := by
    rw [hl]; exact List.mem_cons_self _ _
  have hidx : ehtIndexOf hash s k < s.dir_.length := tinv_idx_lt hash s hInv k
  have hprev : hash e0.1 % 2 ^ targetDepth hash s k =
      ehtIndexOf hash s k % 2 ^ targetDepth hash s k :=
    hInv.sig (ehtIndexOf hash s k) hidx e0.1 (List.mem_map_of_mem Prod.fst he0mem)
  rw [ehtInsertStep_of_fail hash s k v hfail, if_pos hlt]
  congr 1
  -- the incremented intermediate state
  have hba1 : ehtBucketAt
      { s with buckets_ := (s.buckets_.set (targetBid hash s k)
          ⟨(targetBucket hash s k).size_, (targetBucket hash s k).depth_ + 1,
            (targetBucket hash s k).list_⟩) } (targetBid hash s k) =
      ⟨(targetBucket hash s k).size_, (targetBucket hash s k).depth_ + 1,
        (targetBucket hash s k).list_⟩ := by
    simp only [ehtBucketAt]
    exact getD_set_self s.buckets_ _ _ _ hbid
  rw [redistribute_eq hash _ (targetBid hash s k) e0 rest
    (by simpa using hbid)
    (by rw [hba1]; exact hl)
    (by rw [hba1]
        exact hInv.bnodup (targetBucket hash s k) (tinv_target_mem hash s hInv k))
    (by rw [hba1]; exact le_of_eq (target_full_facts hash s k v hInv hfail).1)]
  rw [hba1]
  simp only [splitState, splitPrev, splitKept, splitMoved, targetDepth, targetBucket,
    Nat.add_sub_cancel, List.set_set, List.length_set]
  have hprev2 : hash e0.1 % 2 ^ (ehtBucketAt s (targetBid hash s k)).depth_ =
      ehtIndexOf hash s k % 2 ^ (ehtBucketAt s (targetBid hash s k)).depth_ := hprev
  rw [hprev2]

theorem splitState_gd (s : EHT K V) (bid d0 prev newId : Nat)
    (kept moved : List (K × V)) :
    (splitState s bid d0 prev newId kept moved).global_depth_ = s.global_depth_ :=
  rfl

theorem splitState_cap (s : EHT K V) (bid d0 prev newId : Nat)
    (kept moved : List (K × V)) :
    (splitState s bid d0 prev newId kept moved).bucket_size_ = s.bucket_size_ :=
  rfl

theorem splitState_nb (s : EHT K V) (bid d0 prev newId : Nat)
    (kept moved : List (K × V)) :
    (splitState s bid d0 prev newId kept moved).num_buckets_ = s.num_buckets_ + 1 :=
  rfl

theorem splitState_dir_len (s : EHT K V) (bid d0 prev newId : Nat)
    (kept moved : List (K × V)) :
    (splitState s bid d0 prev newId kept moved).dir_.length = s.dir_.length := by
  simp [splitState]

theorem splitState_buckets_len (s : EHT K V) (bid d0 prev newId : Nat)
    (kept moved : List (K × V)) :
    (splitState s bid d0 prev newId kept moved).buckets_.length =
      s.buckets_.length + 1 := by
  simp [splitState]

theorem splitState_dirAt (s : EHT K V) (bid d0 prev newId : Nat)
    (kept moved : List (K × V)) (i : Nat) (hi : i < s.dir_.length) :
    ehtDirAt (splitState s bid d0 prev newId kept moved) i =
      if i % 2 ^ d0 = prev ∧ ¬ i % 2 ^ (d0 + 1) = prev then newId
      else ehtDirAt s i := by
  simp only [ehtDirAt, splitState]
  exact getD_map_range _ _ i 0 hi

theorem splitState_bucketAt_bid (s : EHT K V) (bid d0 prev newId : Nat)
    (kept moved : List (K × V)) (hbid : bid < s.buckets_.length) :
    ehtBucketAt (splitState s bid d0 prev newId kept moved) bid =
      ⟨(ehtBucketAt s bid).size_, d0 + 1, kept⟩ := by
  simp only [ehtBucketAt, splitState]
  rw [getD_append_lt _ _ bid _ (by simpa using hbid)]
  exact getD_set_self s.buckets_ bid _ _ hbid

theorem splitState_bucketAt_new (s : EHT K V) (bid d0 prev : Nat)
    (kept moved : List (K × V)) :
    ehtBucketAt (splitState s bid d0 prev s.buckets_.length kept moved)
        s.buckets_.length = ⟨s.bucket_size_, d0 + 1, moved⟩ := by
  simp only [ehtBucketAt, splitState]
  rw [getD_append_ge _ _ s.buckets_.length _ (by simp)]
  simp

theorem splitState_bucketAt_other (s : EHT K V) (bid d0 prev newId : Nat)
    (kept moved : List (K × V)) (x : Nat) (hx : x < s.buckets_.length)
    (hne : x ≠ bid) :
    ehtBucketAt (splitState s bid d0 prev newId kept moved) x =
      ehtBucketAt s x := by
  simp only [ehtBucketAt, splitState]
  rw [getD_append_lt _ _ x _ (by simpa using hx)]
  rw [getD_set_ne s.buckets_ bid x _ _ (fun h => hne h.symm)]

theorem splitState_buckets_mem (s : EHT K V) (bid d0 prev newId : Nat)
    (kept moved : List (K × V)) (b2 : EBucket K V)
    (h : b2 ∈ (splitState s bid d0 prev newId kept moved).buckets_) :
    b2 ∈ s.buckets_ ∨ b2 = ⟨(ehtBucketAt s bid).size_, d0 + 1, kept⟩ ∨
      b2 = ⟨s.bucket_size_, d0 + 1, moved⟩ := by
  simp only [splitState, List.mem_append, List.mem_singleton] at h
  rcases h with h | h
  · rcases List.mem_or_eq_of_mem_set h with h2 | h2
    · exact Or.inl h2
    · exact Or.inr (Or.inl h2)
  · exact Or.inr (Or.inr h)

/-- The state produced by the split branch of one `Insert` iteration. -/
def splitNext (s : EHT K V) (k : K) : EHT K V :=
  splitState s (targetBid hash s k) (targetDepth hash s k) (splitPrev hash s k)
    s.buckets_.length (splitKept hash s k) (splitMoved hash s k)

theorem insertStep_split_next (s : EHT K V) (k : K) (v : V) (hInv : TableInv hash s)
    (hfail : (targetBucket hash s k).insertB k v = none)
    (hlt : (targetBucket hash s k).depth_ < s.global_depth_) :
    ehtInsertStep hash s k v = Sum.inr (splitNext hash s k) :=
  insertStep_split hash s k v hInv hfail hlt

theorem tinv_alias_bid (s : EHT K V) (hInv : TableInv hash s) (k : K) (j : Nat)
    (hj : j < s.dir_.length) :
    ehtDirAt s j = targetBid hash s k ↔
      j % 2 ^ targetDepth hash s k = splitPrev hash s k := by
  have hidx := tinv_idx_lt hash s hInv k
  have h := hInv.alias_iff (ehtIndexOf hash s k) hidx j hj
  constructor
  · intro h2
    exact (h.mp h2.symm).symm
  · intro h2
    exact (h.mpr h2.symm).symm

theorem split_prev_lt (s : EHT K V) (k : K) :
    splitPrev hash s k < 2 ^ targetDepth hash s k :=
  Nat.mod_lt _ (pow_pos (by norm_num) _)

theorem split_mod_back (d0 prev : Nat) (hprevlt : prev < 2 ^ d0) (j : Nat)
    (h : j % 2 ^ (d0 + 1) = prev) : j % 2 ^ d0 = prev := by
  have h1 : j % 2 ^ (d0 + 1) % 2 ^ d0 = j % 2 ^ d0 := mod_pow_mod j d0 (d0 + 1) (by omega)
  rw [h] at h1
  rw [← h1]
  exact Nat.mod_eq_of_lt hprevlt

theorem split_mod_back_sib (d0 prev : Nat) (hprevlt : prev < 2 ^ d0) (j : Nat)
    (h : j % 2 ^ (d0 + 1) = prev + 2 ^ d0) : j % 2 ^ d0 = prev := by
  have h1 : j % 2 ^ (d0 + 1) % 2 ^ d0 = j % 2 ^ d0 := mod_pow_mod j d0 (d0 + 1) (by omega)
  rw [h, Nat.add_mod_right] at h1
  rw [← h1]
  exact Nat.mod_eq_of_lt hprevlt

theorem split_dich (d0 prev : Nat) (j : Nat) (h : j % 2 ^ d0 = prev) :
    j % 2 ^ (d0 + 1) = prev ∨ j % 2 ^ (d0 + 1) = prev + 2 ^ d0 := by
  rcases mod_pow_succ_dichotomy j d0 with h2 | h2
  · left; rw [h2, h]
  · right; rw [h2, h]

/-- Classification of every directory slot of the post-split state by the
`(d0+1)`-bit signature of the slot index. -/
theorem split_slots (s : EHT K V) (k : K) (hInv : TableInv hash s) (i : Nat)
    (hi : i < s.dir_.length) :
    (i % 2 ^ (targetDepth hash s k + 1) = splitPrev hash s k →
      ehtDirAt (splitNext hash s k) i = targetBid hash s k ∧
      ehtBucketAt (splitNext hash s k) (ehtDirAt (splitNext hash s k) i) =
        ⟨(ehtBucketAt s (targetBid hash s k)).size_, targetDepth hash s k + 1,
          splitKept hash s k⟩) ∧
    (i % 2 ^ (targetDepth hash s k + 1) = splitPrev hash s k + 2 ^ targetDepth hash s k →
      ehtDirAt (splitNext hash s k) i = s.buckets_.length ∧
      ehtBucketAt (splitNext hash s k) (ehtDirAt (splitNext hash s k) i) =
        ⟨s.bucket_size_, targetDepth hash s k + 1, splitMoved hash s k⟩) ∧
    (¬ i % 2 ^ targetDepth hash s k = splitPrev hash s k →
      ehtDirAt (splitNext hash s k) i = ehtDirAt s i ∧
      ehtBucketAt (splitNext hash s k) (ehtDirAt (splitNext hash s k) i) =
        ehtBucketAt s (ehtDirAt s i)) := by
  have hbid : targetBid hash s k < s.buckets_.length := tinv_bid_lt hash s hInv k
  have hprevlt := split_prev_lt hash s k
  have hda := splitState_dirAt s (targetBid hash s k) (targetDepth hash s k)
    (splitPrev hash s k) s.buckets_.length (splitKept hash s k)
    (splitMoved hash s k) i hi
  refine ⟨?_, ?_, ?_⟩
  · intro hcase
    have hd0 : i % 2 ^ targetDepth hash s k = splitPrev hash s k :=
      split_mod_back _ _ hprevlt i hcase
    have hdir : ehtDirAt (splitNext hash s k) i = ehtDirAt s i := by
      rw [show ehtDirAt (splitNext hash s k) i =
          ehtDirAt (splitState s (targetBid hash s k) (targetDepth hash s k)
            (splitPrev hash s k) s.buckets_.length (splitKept hash s k)
            (splitMoved hash s k)) i from rfl, hda]
      rw [if_neg]
      rintro ⟨-, h2⟩
      exact h2 hcase
    have hdbid : ehtDirAt s i = targetBid hash s k :=
      (tinv_alias_bid hash s hInv k i hi).mpr hd0
    refine ⟨hdir.trans hdbid, ?_⟩
    rw [hdir, hdbid]
    exact splitState_bucketAt_bid s _ _ _ _ _ _ hbid
  · intro hcase
    have hd0 : i % 2 ^ targetDepth hash s k = splitPrev hash s k :=
      split_mod_back_sib _ _ hprevlt i hcase
    have hne : ¬ i % 2 ^ (targetDepth hash s k + 1) = splitPrev hash s k := by
      rw [hcase]
      have : 0 < 2 ^ targetDepth hash s k := pow_pos (by norm_num) _
      omega
    have hdir : ehtDirAt (splitNext hash s k) i = s.buckets_.length := by
      rw [show ehtDirAt (splitNext hash s k) i =
          ehtDirAt (splitState s (targetBid hash s k) (targetDepth hash s k)
            (splitPrev hash s k) s.buckets_.length (splitKept hash s k)
            (splitMoved hash s k)) i from rfl, hda]
      rw [if_pos ⟨hd0, hne⟩]
    refine ⟨hdir, ?_⟩
    rw [hdir]
    exact splitState_bucketAt_new s _ _ _ _ _
  · intro hcase
    have hdir : ehtDirAt (splitNext hash s k) i = ehtDirAt s i := by
      rw [show ehtDirAt (splitNext hash s k) i =
          ehtDirAt (splitState s (targetBid hash s k) (targetDepth hash s k)
            (splitPrev hash s k) s.buckets_.length (splitKept hash s k)
            (splitMoved hash s k)) i from rfl, hda]
      rw [if_neg]
      rintro ⟨h2, -⟩
      exact hcase h2
    have hxne : ehtDirAt s i ≠ targetBid hash s k := by
      intro h2
      exact hcase ((tinv_alias_bid hash s hInv k i hi).mp h2)
    have hxlt : ehtDirAt s i < s.buckets_.length :=
      hInv.ids_lt _ (getD_mem s.dir_ i 0 hi)
    refine ⟨hdir, ?_⟩
    rw [hdir]
    exact splitState_bucketAt_other s _ _ _ _ _ _ _ hxlt hxne

theorem split_dirAt_bid_iff (s : EHT K V) (k : K) (hInv : TableInv hash s)
    (j : Nat) (hj : j < s.dir_.length) :
    ehtDirAt (splitNext hash s k) j = targetBid hash s k ↔
      j % 2 ^ (targetDepth hash s k + 1) = splitPrev hash s k := by
  have hbid : targetBid hash s k < s.buckets_.length := tinv_bid_lt hash s hInv k
  have hslots := split_slots hash s k hInv j hj
  constructor
  · intro h
    by_cases hj0 : j % 2 ^ targetDepth hash s k = splitPrev hash s k
    · rcases split_dich _ _ j hj0 with hc | hc
      · exact hc
      · exfalso
        have := (hslots.2.1 hc).1
        rw [this] at h
        omega
    · exfalso
      have := (hslots.2.2 hj0).1
      rw [this] at h
      exact hj0 ((tinv_alias_bid hash s hInv k j hj).mp h)
  · intro h
    exact (hslots.1 h).1

theorem split_dirAt_new_iff (s : EHT K V) (k : K) (hInv : TableInv hash s)
    (j : Nat) (hj : j < s.dir_.length) :
    ehtDirAt (splitNext hash s k) j = s.buckets_.length ↔
      j % 2 ^ (targetDepth hash s k + 1) =
        splitPrev hash s k + 2 ^ targetDepth hash s k := by
  have hbid : targetBid hash s k < s.buckets_.length := tinv_bid_lt hash s hInv k
  have hslots := split_slots hash s k hInv j hj
  constructor
  · intro h
    by_cases hj0 : j % 2 ^ targetDepth hash s k = splitPrev hash s k
    · rcases split_dich _ _ j hj0 with hc | hc
      · exfalso
        have := (hslots.1 hc).1
        rw [this] at h
        omega
      · exact hc
    · exfalso
      have := (hslots.2.2 hj0).1
      rw [this] at h
      have hxlt : ehtDirAt s j < s.buckets_.length :=
        hInv.ids_lt _ (getD_mem s.dir_ j 0 hj)
      omega
  · intro h
    exact (hslots.2.1 h).1

theorem split_kept_keys (s : EHT K V) (k : K) (x : K)
    (hx : x ∈ (splitKept hash s k).map Prod.fst) :
    x ∈ (targetBucket hash s k).list_.map Prod.fst ∧
      hash x % 2 ^ (targetDepth hash s k + 1) = splitPrev hash s k := by
  rcases List.mem_map.mp hx with ⟨e, he, rfl⟩
  rcases List.mem_filter.mp he with ⟨hmem, hdec⟩
  exact ⟨List.mem_map_of_mem _ hmem, of_decide_eq_true hdec⟩

theorem split_moved_keys (s : EHT K V) (k : K) (x : K)
    (hx : x ∈ (splitMoved hash s k).map Prod.fst) :
    x ∈ (targetBucket hash s k).list_.map Prod.fst ∧
      ¬ hash x % 2 ^ (targetDepth hash s k + 1) = splitPrev hash s k := by
  rcases List.mem_map.mp hx with ⟨e, he, rfl⟩
  rcases List.mem_filter.mp he with ⟨hmem, hdec⟩
  refine ⟨List.mem_map_of_mem _ hmem, ?_⟩
  simp only [Bool.not_eq_eq_eq_not, Bool.not_true, decide_eq_false_iff_not] at hdec
  exact hdec

theorem split_sig0 (s : EHT K V) (k : K) (hInv : TableInv hash s) (x : K)
    (hx : x ∈ (targetBucket hash s k).list_.map Prod.fst) :
    hash x % 2 ^ targetDepth hash s k = splitPrev hash s k :=
  hInv.sig (ehtIndexOf hash s k) (tinv_idx_lt hash s hInv k) x hx

theorem tinv_split (s : EHT K V) (k : K) (v : V) (hInv : TableInv hash s)
    (hfail : (targetBucket hash s k).insertB k v = none)
    (hlt : (targetBucket hash s k).depth_ < s.global_depth_) :
    TableInv hash (splitNext hash s k) := by
  have hbid : targetBid hash s k < s.buckets_.length := tinv_bid_lt hash s hInv k
  have hbmem : targetBucket hash s k ∈ s.buckets_ := tinv_target_mem hash s hInv k
  have hlt2 : targetDepth hash s k < s.global_depth_ := hlt
  have hdl : (splitNext hash s k).dir_.length = s.dir_.length :=
    splitState_dir_len s _ _ _ _ _ _
  have hgd : (splitNext hash s k).global_depth_ = s.global_depth_ := rfl
  have hbl : (splitNext hash s k).buckets_.length = s.buckets_.length + 1 :=
    splitState_buckets_len s _ _ _ _ _ _
  refine ⟨hInv.cap_pos, ?_, ?_, ?_, ?_, ?_, ?_, ?_, ?_⟩
  · rw [hdl, hgd]
    exact hInv.dir_len
  · intro x hx
    rw [hbl]
    have hx2 : x ∈ (List.range s.dir_.length).map (fun i =>
        if i % 2 ^ targetDepth hash s k = splitPrev hash s k ∧
            ¬ i % 2 ^ (targetDepth hash s k + 1) = splitPrev hash s k
        then s.buckets_.length else s.dir_.getD i 0) := hx
    rcases List.mem_map.mp hx2 with ⟨i, hi, rfl⟩
    split
    · omega
    · have hmem : s.dir_.getD i 0 ∈ s.dir_ :=
        getD_mem _ _ _ (List.mem_range.mp hi)
      have := hInv.ids_lt _ hmem
      omega
  · intro b2 hb2
    rcases splitState_buckets_mem s _ _ _ _ _ _ b2 hb2 with h | h | h
    · exact hInv.bsize b2 h
    · rw [h]
      show (ehtBucketAt s (targetBid hash s k)).size_ =
        (splitNext hash s k).bucket_size_
      exact hInv.bsize (ehtBucketAt s (targetBid hash s k)) (bucketAt_mem s _ hbid)
    · rw [h]
      rfl
  · intro b2 hb2
    rcases splitState_buckets_mem s _ _ _ _ _ _ b2 hb2 with h | h | h
    · exact hInv.blen b2 h
    · rw [h]
      show (splitKept hash s k).length ≤ (ehtBucketAt s (targetBid hash s k)).size_
      have h2 : (targetBucket hash s k).list_.length ≤
          (ehtBucketAt s (targetBid hash s k)).size_ := hInv.blen _ hbmem
      exact le_trans (List.length_filter_le _ (targetBucket hash s k).list_) h2
    · rw [h]
      show (splitMoved hash s k).length ≤ s.bucket_size_
      have h2 : (targetBucket hash s k).list_.length ≤ s.bucket_size_ := by
        have ha := hInv.blen _ hbmem
        have hb := hInv.bsize _ hbmem
        omega
      exact le_trans (List.length_filter_le _ (targetBucket hash s k).list_) h2
  · intro b2 hb2
    rcases splitState_buckets_mem s _ _ _ _ _ _ b2 hb2 with h | h | h
    · exact hInv.bnodup b2 h
    · rw [h]
      show ((splitKept hash s k).map Prod.fst).Nodup
      exact List.Nodup.sublist (List.Sublist.map Prod.fst (List.filter_sublist _))
        (hInv.bnodup _ hbmem)
    · rw [h]
      show ((splitMoved hash s k).map Prod.fst).Nodup
      exact List.Nodup.sublist (List.Sublist.map Prod.fst (List.filter_sublist _))
        (hInv.bnodup _ hbmem)
  · intro i hi
    rw [hdl] at hi
    rw [hgd]
    have hslots := split_slots hash s k hInv i hi
    by_cases hj0 : i % 2 ^ targetDepth hash s k = splitPrev hash s k
    · rcases split_dich _ _ i hj0 with hc | hc
      · rw [(hslots.1 hc).2]
        show targetDepth hash s k + 1 ≤ s.global_depth_
        omega
      · rw [(hslots.2.1 hc).2]
        show targetDepth hash s k + 1 ≤ s.global_depth_
        omega
    · rw [(hslots.2.2 hj0).2]
      exact hInv.depth_le i hi
  · intro i hi x hx
    rw [hdl] at hi
    have hslots := split_slots hash s k hInv i hi
    by_cases hj0 : i % 2 ^ targetDepth hash s k = splitPrev hash s k
    · rcases split_dich _ _ i hj0 with hc | hc
      · rw [(hslots.1 hc).2] at hx ⊢
        have hx2 : x ∈ (splitKept hash s k).map Prod.fst := hx
        have hk := split_kept_keys hash s k x hx2
        show hash x % 2 ^ (targetDepth hash s k + 1) =
          i % 2 ^ (targetDepth hash s k + 1)
        rw [hk.2, hc]
      · rw [(hslots.2.1 hc).2] at hx ⊢
        have hx2 : x ∈ (splitMoved hash s k).map Prod.fst := hx
        have hm := split_moved_keys hash s k x hx2
        have h0 := split_sig0 hash s k hInv x hm.1
        rcases split_dich _ _ (hash x) h0 with hcc | hcc
        · exact absurd hcc hm.2
        · show hash x % 2 ^ (targetDepth hash s k + 1) =
            i % 2 ^ (targetDepth hash s k + 1)
          rw [hcc, hc]
    · rw [(hslots.2.2 hj0).2] at hx ⊢
      exact hInv.sig i hi x hx
  · intro i hi j hj
    rw [hdl] at hi hj
    have hsi := split_slots hash s k hInv i hi
    have hsj := split_slots hash s k hInv j hj
    by_cases hi0 : i % 2 ^ targetDepth hash s k = splitPrev hash s k
    · rcases split_dich _ _ i hi0 with hci | hci
      · rw [(hsi.1 hci).2, (hsi.1 hci).1]
        show targetBid hash s k = ehtDirAt (splitNext hash s k) j ↔
          i % 2 ^ (targetDepth hash s k + 1) = j % 2 ^ (targetDepth hash s k + 1)
        have hj2 := split_dirAt_bid_iff hash s k hInv j hj
        constructor
        · intro h
          rw [hci, hj2.mp h.symm]
        · intro h
          have hh : j % 2 ^ (targetDepth hash s k + 1) = splitPrev hash s k := by
            rw [← h]
            exact hci
          exact (hj2.mpr hh).symm
      · rw [(hsi.2.1 hci).2, (hsi.2.1 hci).1]
        show s.buckets_.length = ehtDirAt (splitNext hash s k) j ↔
          i % 2 ^ (targetDepth hash s k + 1) = j % 2 ^ (targetDepth hash s k + 1)
        have hj2 := split_dirAt_new_iff hash s k hInv j hj
        constructor
        · intro h
          rw [hci, hj2.mp h.symm]
        · intro h
          have hh : j % 2 ^ (targetDepth hash s k + 1) =
              splitPrev hash s k + 2 ^ targetDepth hash s k := by
            rw [← h]
            exact hci
          exact (hj2.mpr hh).symm
    · rw [(hsi.2.2 hi0).2, (hsi.2.2 hi0).1]
      have hold := hInv.alias_iff i hi j hj
      by_cases hj0 : j % 2 ^ targetDepth hash s k = splitPrev hash s k
      · have hL : ¬ ehtDirAt s i = targetBid hash s k :=
          fun h => hi0 ((tinv_alias_bid hash s hInv k i hi).mp h)
        have hjb : ehtDirAt s j = targetBid hash s k :=
          (tinv_alias_bid hash s hInv k j hj).mpr hj0
        rcases split_dich _ _ j hj0 with hcj | hcj
        · rw [(hsj.1 hcj).1]
          constructor
          · intro h
            exact absurd h hL
          · intro h
            exact absurd ((hold.mpr h).trans hjb) hL
        · rw [(hsj.2.1 hcj).1]
          have hilt : ehtDirAt s i < s.buckets_.length :=
            hInv.ids_lt _ (getD_mem _ _ _ hi)
          have hL2 : ¬ ehtDirAt s i = s.buckets_.length := by omega
          constructor
          · intro h
            exact absurd h hL2
          · intro h
            exact absurd ((hold.mpr h).trans hjb) hL
      · rw [(hsj.2.2 hj0).1]
        exact hold

/-! ## Doubling, success, and remove steps -/

/-- The state after the directory-doubling branch of one `Insert`
iteration. -/
def doubleNext (s : EHT K V) : EHT K V :=
  { s with dir_ := s.dir_ ++ s.dir_, global_depth_ := s.global_depth_ + 1 }

theorem ehtInsertStep_double (s : EHT K V) (k : K) (v : V)
    (hfail : (targetBucket hash s k).insertB k v = none)
    (hge : ¬ (targetBucket hash s k).depth_ < s.global_depth_) :
    ehtInsertStep hash s k v = Sum.inr (doubleNext s) := by
  rw [ehtInsertStep_of_fail hash s k v hfail, if_neg hge]
  rfl

theorem doubleNext_dir_len (s : EHT K V) (hInv : TableInv hash s) :
    (doubleNext s).dir_.length = 2 ^ (s.global_depth_ + 1) := by
  simp only [doubleNext, List.length_append, hInv.dir_len]
  ring

theorem doubleNext_dirAt (s : EHT K V) (hInv : TableInv hash s) (i : Nat)
    (hi : i < 2 ^ (s.global_depth_ + 1)) :
    ehtDirAt (doubleNext s) i = ehtDirAt s (i % 2 ^ s.global_depth_) := by
  simp only [ehtDirAt, doubleNext]
  by_cases h : i < s.dir_.length
  · rw [getD_append_lt _ _ i 0 h]
    rw [hInv.dir_len] at h
    rw [Nat.mod_eq_of_lt h]
  · rw [getD_append_ge _ _ i 0 (by omega)]
    rw [hInv.dir_len] at h ⊢
    have h2 : i - 2 ^ s.global_depth_ < 2 ^ s.global_depth_ := by
      rw [pow_succ] at hi
      omega
    have h3 : i % 2 ^ s.global_depth_ = i - 2 ^ s.global_depth_ := by
      rw [Nat.mod_eq_sub_mod (by omega), Nat.mod_eq_of_lt h2]
    rw [h3]

theorem doubleNext_bucketAt (s : EHT K V) (x : Nat) :
    ehtBucketAt (doubleNext s) x = ehtBucketAt s x := rfl

theorem tinv_double (s : EHT K V) (hInv : TableInv hash s) :
    TableInv hash (doubleNext s) := by
  have hgd : (doubleNext s).global_depth_ = s.global_depth_ + 1 := rfl
  have hdl := doubleNext_dir_len hash s hInv
  refine ⟨hInv.cap_pos, ?_, ?_, hInv.bsize, hInv.blen, hInv.bnodup, ?_, ?_, ?_⟩
  · rw [hdl, hgd]
  · intro x hx
    simp only [doubleNext, List.mem_append] at hx
    rcases hx with hx | hx
    · exact hInv.ids_lt x hx
    · exact hInv.ids_lt x hx
  · intro i hi
    rw [hdl] at hi
    rw [doubleNext_dirAt hash s hInv i hi, doubleNext_bucketAt, hgd]
    have hi2 : i % 2 ^ s.global_depth_ < s.dir_.length := by
      rw [hInv.dir_len]
      exact Nat.mod_lt _ (pow_pos (by norm_num) _)
    have := hInv.depth_le _ hi2
    omega
  · intro i hi x hx
    rw [hdl] at hi
    rw [doubleNext_dirAt hash s hInv i hi, doubleNext_bucketAt] at hx ⊢
    have hi2 : i % 2 ^ s.global_depth_ < s.dir_.length := by
      rw [hInv.dir_len]
      exact Nat.mod_lt _ (pow_pos (by norm_num) _)
    have hsig := hInv.sig _ hi2 x hx
    have hdle := hInv.depth_le _ hi2
    rw [hsig, mod_pow_mod i _ _ hdle]
  · intro i hi j hj
    rw [hdl] at hi hj
    rw [doubleNext_dirAt hash s hInv i hi, doubleNext_dirAt hash s hInv j hj,
      doubleNext_bucketAt]
    have hi2 : i % 2 ^ s.global_depth_ < s.dir_.length := by
      rw [hInv.dir_len]
      exact Nat.mod_lt _ (pow_pos (by norm_num) _)
    have hj2 : j % 2 ^ s.global_depth_ < s.dir_.length := by
      rw [hInv.dir_len]
      exact Nat.mod_lt _ (pow_pos (by norm_num) _)
    have hold := hInv.alias_iff _ hi2 _ hj2
    have hdle := hInv.depth_le _ hi2
    rw [hold, mod_pow_mod i _ _ hdle, mod_pow_mod j _ _ hdle]

/-- The state after a successful bucket insert (the `return` branch). -/
def inlNext (s : EHT K V) (k : K) (b2 : EBucket K V) : EHT K V :=
  { s with buckets_ := s.buckets_.set (targetBid hash s k) b2 }

theorem ehtInsertStep_inl_next (s : EHT K V) (k : K) (v : V) (b2 : EBucket K V)
    (h : (targetBucket hash s k).insertB k v = some b2) :
    ehtInsertStep hash s k v = Sum.inl (inlNext hash s k b2) :=
  ehtInsertStep_of_some hash s k v b2 h

theorem inlNext_bucketAt_bid (s : EHT K V) (k : K) (b2 : EBucket K V)
    (hbid : targetBid hash s k < s.buckets_.length) :
    ehtBucketAt (inlNext hash s k b2) (targetBid hash s k) = b2 := by
  simp only [ehtBucketAt, inlNext]
  exact getD_set_self _ _ _ _ hbid

theorem inlNext_bucketAt_other (s : EHT K V) (k : K) (b2 : EBucket K V)
    (x : Nat) (hx : ¬ x = targetBid hash s k) :
    ehtBucketAt (inlNext hash s k b2) x = ehtBucketAt s x := by
  simp only [ehtBucketAt, inlNext]
  exact getD_set_ne _ _ _ _ _ (fun h => hx h.symm)

theorem inlNext_slots (s : EHT K V) (k : K) (b2 : EBucket K V)
    (hbid : targetBid hash s k < s.buckets_.length) (i : Nat) :
    (ehtDirAt s i = targetBid hash s k →
      ehtBucketAt (inlNext hash s k b2) (ehtDirAt (inlNext hash s k b2) i) = b2) ∧
    (¬ ehtDirAt s i = targetBid hash s k →
      ehtBucketAt (inlNext hash s k b2) (ehtDirAt (inlNext hash s k b2) i) =
        ehtBucketAt s (ehtDirAt s i)) := by
  have hd : ehtDirAt (inlNext hash s k b2) i = ehtDirAt s i := rfl
  rw [hd]
  constructor
  · intro hcase
    rw [hcase]
    exact inlNext_bucketAt_bid hash s k b2 hbid
  · intro hcase
    exact inlNext_bucketAt_other hash s k b2 _ hcase

theorem tinv_inl (s : EHT K V) (k : K) (v : V) (b2 : EBucket K V)
    (hInv : TableInv hash s)
    (h : (targetBucket hash s k).insertB k v = some b2) :
    TableInv hash (inlNext hash s k b2) := by
  have hbid := tinv_bid_lt hash s hInv k
  have hbmem := tinv_target_mem hash s hInv k
  have hp := insertB_props (targetBucket hash s k) k v b2 h
  have hdepth : b2.depth_ = (targetBucket hash s k).depth_ := hp.2.1
  refine ⟨hInv.cap_pos, hInv.dir_len, ?_, ?_, ?_, ?_, ?_, ?_, ?_⟩
  · intro x hx
    have hl : (inlNext hash s k b2).buckets_.length = s.buckets_.length :=
      List.length_set _ _ _
    rw [hl]
    exact hInv.ids_lt x hx
  · intro bb hbb
    rcases List.mem_or_eq_of_mem_set (show bb ∈ _ from hbb) with h2 | h2
    · exact hInv.bsize bb h2
    · rw [h2, hp.1]
      exact hInv.bsize _ hbmem
  · intro bb hbb
    rcases List.mem_or_eq_of_mem_set (show bb ∈ _ from hbb) with h2 | h2
    · exact hInv.blen bb h2
    · have h3 := hp.2.2.1 (hInv.blen _ hbmem)
      rw [h2, hp.1]
      exact h3
  · intro bb hbb
    rcases List.mem_or_eq_of_mem_set (show bb ∈ _ from hbb) with h2 | h2
    · exact hInv.bnodup bb h2
    · rw [h2]
      exact hp.2.2.2.1 (hInv.bnodup _ hbmem)
  · intro i hi
    have hi2 : i < s.dir_.length := hi
    by_cases hcase : ehtDirAt s i = targetBid hash s k
    · rw [(inlNext_slots hash s k b2 hbid i).1 hcase, hdepth]
      have h3 := hInv.depth_le i hi2
      rw [hcase] at h3
      exact h3
    · rw [(inlNext_slots hash s k b2 hbid i).2 hcase]
      exact hInv.depth_le i hi2
  · intro i hi x hx
    have hi2 : i < s.dir_.length := hi
    by_cases hcase : ehtDirAt s i = targetBid hash s k
    · rw [(inlNext_slots hash s k b2 hbid i).1 hcase] at hx ⊢
      rw [hdepth]
      rcases hp.2.2.2.2 x hx with hold | hxk
      · have h3 := hInv.sig i hi2 x (by rw [hcase]; exact hold)
        rw [hcase] at h3
        exact h3
      · have hidxlt := tinv_idx_lt hash s hInv k
        have halias := hInv.alias_iff (ehtIndexOf hash s k) hidxlt i hi2
        have hidr : ehtDirAt s (ehtIndexOf hash s k) = ehtDirAt s i := by
          rw [hcase]
          rfl
        have hmod := halias.mp hidr
        have hdle : targetDepth hash s k ≤ s.global_depth_ :=
          hInv.depth_le _ hidxlt
        have h1 : hash k % 2 ^ targetDepth hash s k =
            ehtIndexOf hash s k % 2 ^ targetDepth hash s k :=
          (mod_pow_mod (hash k) _ _ hdle).symm
        rw [hxk]
        exact h1.trans hmod
    · rw [(inlNext_slots hash s k b2 hbid i).2 hcase] at hx ⊢
      exact hInv.sig i hi2 x hx
  · intro i hi j hj
    have hi2 : i < s.dir_.length := hi
    have hj2 : j < s.dir_.length := hj
    have hdd : ∀ m, (ehtBucketAt (inlNext hash s k b2)
        (ehtDirAt (inlNext hash s k b2) m)).depth_ =
        (ehtBucketAt s (ehtDirAt s m)).depth_ := by
      intro m
      by_cases hcase : ehtDirAt s m = targetBid hash s k
      · rw [(inlNext_slots hash s k b2 hbid m).1 hcase, hdepth, hcase]
        rfl
      · rw [(inlNext_slots hash s k b2 hbid m).2 hcase]
    rw [hdd i]
    have hda : ehtDirAt (inlNext hash s k b2) i = ehtDirAt s i := rfl
    have hdb : ehtDirAt (inlNext hash s k b2) j = ehtDirAt s j := rfl
    rw [hda, hdb]
    exact hInv.alias_iff i hi2 j hj2

theorem tinv_remove (s : EHT K V) (k : K) (hInv : TableInv hash s) :
    TableInv hash (ehtRemove hash s k).2 := by
  have hbid := tinv_bid_lt hash s hInv k
  have hbmem := tinv_target_mem hash s hInv k
  simp only [ehtRemove]
  cases hrb : (targetBucket hash s k).removeB k with
  | none =>
    have hrb2 : (ehtBucketAt s (ehtDirAt s (ehtIndexOf hash s k))).removeB k =
        none := hrb
    rw [hrb2]
    exact hInv
  | some b2 =>
    have hrb2 : (ehtBucketAt s (ehtDirAt s (ehtIndexOf hash s k))).removeB k =
        some b2 := hrb
    rw [hrb2]
    have hp := removeB_props (targetBucket hash s k) k b2 hrb
    have hdepth : b2.depth_ = (targetBucket hash s k).depth_ := hp.2.1
    show TableInv hash (inlNext hash s k b2)
    refine ⟨hInv.cap_pos, hInv.dir_len, ?_, ?_, ?_, ?_, ?_, ?_, ?_⟩
    · intro x hx
      have hl : (inlNext hash s k b2).buckets_.length = s.buckets_.length :=
        List.length_set _ _ _
      rw [hl]
      exact hInv.ids_lt x hx
    · intro bb hbb
      rcases List.mem_or_eq_of_mem_set (show bb ∈ _ from hbb) with h2 | h2
      · exact hInv.bsize bb h2
      · rw [h2, hp.1]
        exact hInv.bsize _ hbmem
    · intro bb hbb
      rcases List.mem_or_eq_of_mem_set (show bb ∈ _ from hbb) with h2 | h2
      · exact hInv.blen bb h2
      · have h3 : b2.list_.length ≤ (targetBucket hash s k).list_.length :=
          List.Sublist.length_le hp.2.2
        have h4 := hInv.blen _ hbmem
        have h5 : (targetBucket hash s k).list_.length ≤
            (targetBucket hash s k).size_ := h4
        rw [h2, hp.1]
        omega
    · intro bb hbb
      rcases List.mem_or_eq_of_mem_set (show bb ∈ _ from hbb) with h2 | h2
      · exact hInv.bnodup bb h2
      · rw [h2]
        exact List.Nodup.sublist (List.Sublist.map Prod.fst hp.2.2)
          (hInv.bnodup _ hbmem)
    · intro i hi
      have hi2 : i < s.dir_.length := hi
      by_cases hcase : ehtDirAt s i = targetBid hash s k
      · rw [(inlNext_slots hash s k b2 hbid i).1 hcase, hdepth]
        have h3 := hInv.depth_le i hi2
        rw [hcase] at h3
        exact h3
      · rw [(inlNext_slots hash s k b2 hbid i).2 hcase]
        exact hInv.depth_le i hi2
    · intro i hi x hx
      have hi2 : i < s.dir_.length := hi
      by_cases hcase : ehtDirAt s i = targetBid hash s k
      · rw [(inlNext_slots hash s k b2 hbid i).1 hcase] at hx ⊢
        rw [hdepth]
        have hxorig : x ∈ (targetBucket hash s k).list_.map Prod.fst := by
          rcases List.mem_map.mp hx with ⟨e, he, rfl⟩
          exact List.mem_map_of_mem Prod.fst (List.Sublist.mem he hp.2.2)
        have h3 := hInv.sig i hi2 x (by rw [hcase]; exact hxorig)
        rw [hcase] at h3
        exact h3
      · rw [(inlNext_slots hash s k b2 hbid i).2 hcase] at hx ⊢
        exact hInv.sig i hi2 x hx
    · intro i hi j hj
      have hi2 : i < s.dir_.length := hi
      have hj2 : j < s.dir_.length := hj
      have hdd : ∀ m, (ehtBucketAt (inlNext hash s k b2)
          (ehtDirAt (inlNext hash s k b2) m)).depth_ =
          (ehtBucketAt s (ehtDirAt s m)).depth_ := by
        intro m
        by_cases hcase : ehtDirAt s m = targetBid hash s k
        · rw [(inlNext_slots hash s k b2 hbid m).1 hcase, hdepth, hcase]
          rfl
        · rw [(inlNext_slots hash s k b2 hbid m).2 hcase]
      rw [hdd i]
      have hda : ehtDirAt (inlNext hash s k b2) i = ehtDirAt s i := rfl
      have hdb : ehtDirAt (inlNext hash s k b2) j = ehtDirAt s j := rfl
      rw [hda, hdb]
      exact hInv.alias_iff i hi2 j hj2

theorem tinv_new (n : Nat) (hn : 1 ≤ n) : TableInv hash (newTable n : EHT K V) := by
  refine ⟨hn, rfl, ?_, ?_, ?_, ?_, ?_, ?_, ?_⟩
  · intro x hx
    simp only [newTable, List.mem_singleton] at hx
    simp [newTable, hx]
  · intro b hb
    simp only [newTable, List.mem_singleton] at hb
    rw [hb]
    rfl
  · intro b hb
    simp only [newTable, List.mem_singleton] at hb
    rw [hb]
    simp
  · intro b hb
    simp only [newTable, List.mem_singleton] at hb
    rw [hb]
    simp
  · intro i hi
    simp only [newTable, List.length_singleton] at hi
    interval_cases i
    simp [newTable, ehtDirAt, ehtBucketAt]
  · intro i hi x hx
    simp only [newTable, List.length_singleton] at hi
    interval_cases i
    simp [newTable, ehtDirAt, ehtBucketAt] at hx
  · intro i hi j hj
    simp only [newTable, List.length_singleton] at hi hj
    interval_cases i
    interval_cases j
    simp

theorem tinv_step_inl (s : EHT K V) (k : K) (v : V) (t : EHT K V)
    (hInv : TableInv hash s) (h : ehtInsertStep hash s k v = Sum.inl t) :
    TableInv hash t := by
  cases hb : (targetBucket hash s k).insertB k v with
  | some b2 =>
    rw [ehtInsertStep_inl_next hash s k v b2 hb] at h
    cases h
    exact tinv_inl hash s k v b2 hInv hb
  | none =>
    by_cases hd : (targetBucket hash s k).depth_ < s.global_depth_
    · rw [insertStep_split_next hash s k v hInv hb hd] at h
      cases h
    · rw [ehtInsertStep_double hash s k v hb hd] at h
      cases h

theorem tinv_step_inr (s : EHT K V) (k : K) (v : V) (t : EHT K V)
    (hInv : TableInv hash s) (h : ehtInsertStep hash s k v = Sum.inr t) :
    TableInv hash t := by
  cases hb : (targetBucket hash s k).insertB k v with
  | some b2 =>
    rw [ehtInsertStep_inl_next hash s k v b2 hb] at h
    cases h
  | none =>
    by_cases hd : (targetBucket hash s k).depth_ < s.global_depth_
    · rw [insertStep_split_next hash s k v hInv hb hd] at h
      cases h
      exact tinv_split hash s k v hInv hb hd
    · rw [ehtInsertStep_double hash s k v hb hd] at h
      cases h
      exact tinv_double hash s hInv

theorem tinv_insertFuel (k : K) (v : V) :
    ∀ (fuel : Nat) (s t : EHT K V), TableInv hash s →
      ehtInsertFuel hash fuel s k v = some t → TableInv hash t := by
  intro fuel
  induction fuel with
  | zero => intro s t _ h; cases h
  | succ fuel ih =>
    intro s t hInv h
    simp only [ehtInsertFuel] at h
    cases hstep : ehtInsertStep hash s k v with
    | inl t2 =>
      rw [hstep] at h
      cases h
      exact tinv_step_inl hash s k v _ hInv hstep
    | inr t2 =>
      rw [hstep] at h
      exact ih t2 t (tinv_step_inr hash s k v t2 hInv hstep) h

theorem tinv_reach (s : EHT K V) (h : EReach hash s) : TableInv hash s := by
  induction h with
  | init n hn => exact tinv_new hash n hn
  | insert s k v fuel t _ hfuel ih => exact tinv_insertFuel hash k v fuel s t ih hfuel
  | remove s k _ ih => exact tinv_remove hash s k ih

/-! ## Effect of the steps on `Find` -/

theorem find_split (s : EHT K V) (k : K) (hInv : TableInv hash s)
    (hlt : targetDepth hash s k < s.global_depth_) (q : K) :
    ehtFind hash (splitNext hash s k) q = ehtFind hash s q := by
  have hidxq : ehtIndexOf hash s q < s.dir_.length := tinv_idx_lt hash s hInv q
  have hslots := split_slots hash s k hInv (ehtIndexOf hash s q) hidxq
  have hdle : targetDepth hash s k + 1 ≤ s.global_depth_ := by omega
  have hq1 : hash q % 2 ^ (targetDepth hash s k + 1) =
      ehtIndexOf hash s q % 2 ^ (targetDepth hash s k + 1) :=
    (mod_pow_mod (hash q) _ _ hdle).symm
  show (ehtBucketAt (splitNext hash s k) (ehtDirAt (splitNext hash s k)
      (ehtIndexOf hash s q))).findB q = ehtFind hash s q
  by_cases hq0 : ehtIndexOf hash s q % 2 ^ targetDepth hash s k =
      splitPrev hash s k
  · have hsbid : ehtDirAt s (ehtIndexOf hash s q) = targetBid hash s k :=
      (tinv_alias_bid hash s hInv k _ hidxq).mpr hq0
    have hfind : ehtFind hash s q =
        bucketFindList q (targetBucket hash s k).list_ := by
      show (ehtBucketAt s (ehtDirAt s (ehtIndexOf hash s q))).findB q = _
      rw [hsbid]
      rfl
    rcases split_dich _ _ _ hq0 with hc | hc
    · rw [(hslots.1 hc).2]
      show bucketFindList q (splitKept hash s k) = ehtFind hash s q
      rw [hfind]
      simp only [splitKept]
      apply bucketFindList_filter
      intro e he heq
      rw [heq, decide_eq_true_eq]
      exact hq1.trans hc
    · rw [(hslots.2.1 hc).2]
      show bucketFindList q (splitMoved hash s k) = ehtFind hash s q
      rw [hfind]
      simp only [splitMoved]
      apply bucketFindList_filter
      intro e he heq
      have h2 : hash q % 2 ^ (targetDepth hash s k + 1) =
          splitPrev hash s k + 2 ^ targetDepth hash s k := hq1.trans hc
      have hpos : 0 < 2 ^ targetDepth hash s k := pow_pos (by norm_num) _
      rw [heq, h2]
      simp only [Bool.not_eq_eq_eq_not, Bool.not_true, decide_eq_false_iff_not]
      omega
  · rw [(hslots.2.2 hq0).2]
    rfl

theorem find_double (s : EHT K V) (hInv : TableInv hash s) (q : K) :
    ehtFind hash (doubleNext s) q = ehtFind hash s q := by
  have hgd : (doubleNext s).global_depth_ = s.global_depth_ + 1 := rfl
  have hi : hash q % 2 ^ (s.global_depth_ + 1) < 2 ^ (s.global_depth_ + 1) :=
    Nat.mod_lt _ (pow_pos (by norm_num) _)
  show (ehtBucketAt (doubleNext s) (ehtDirAt (doubleNext s)
      (hash q % 2 ^ (s.global_depth_ + 1)))).findB q = ehtFind hash s q
  rw [doubleNext_dirAt hash s hInv _ hi, doubleNext_bucketAt]
  rw [mod_pow_mod (hash q) s.global_depth_ (s.global_depth_ + 1) (by omega)]
  rfl

theorem find_inl_ne (s : EHT K V) (k : K) (v : V) (b2 : EBucket K V) (q : K)
    (hInv : TableInv hash s) (hb : (targetBucket hash s k).insertB k v = some b2)
    (hne : q ≠ k) :
    ehtFind hash (inlNext hash s k b2) q = ehtFind hash s q := by
  have hbid := tinv_bid_lt hash s hInv k
  show (ehtBucketAt (inlNext hash s k b2) (ehtDirAt (inlNext hash s k b2)
      (ehtIndexOf hash s q))).findB q = ehtFind hash s q
  by_cases hcase : ehtDirAt s (ehtIndexOf hash s q) = targetBid hash s k
  · rw [(inlNext_slots hash s k b2 hbid (ehtIndexOf hash s q)).1 hcase]
    have hfind : ehtFind hash s q =
        (targetBucket hash s k).findB q := by
      show (ehtBucketAt s (ehtDirAt s (ehtIndexOf hash s q))).findB q = _
      rw [hcase]
      rfl
    rw [hfind]
    exact insertB_findB_ne (targetBucket hash s k) k q v b2 hne hb
  · rw [(inlNext_slots hash s k b2 hbid (ehtIndexOf hash s q)).2 hcase]
    rfl

theorem find_inl_self (s : EHT K V) (k : K) (v : V) (b2 : EBucket K V)
    (hInv : TableInv hash s)
    (hb : (targetBucket hash s k).insertB k v = some b2) :
    ehtFind hash (inlNext hash s k b2) k = some v := by
  have hbid := tinv_bid_lt hash s hInv k
  show (ehtBucketAt (inlNext hash s k b2) (ehtDirAt (inlNext hash s k b2)
      (ehtIndexOf hash s k))).findB k = some v
  have hcase : ehtDirAt s (ehtIndexOf hash s k) = targetBid hash s k := rfl
  rw [(inlNext_slots hash s k b2 hbid (ehtIndexOf hash s k)).1 hcase]
  exact insertB_findB_self (targetBucket hash s k) k v b2 hb

theorem find_inr (s : EHT K V) (k : K) (v : V) (t : EHT K V)
    (hInv : TableInv hash s) (h : ehtInsertStep hash s k v = Sum.inr t) (q : K) :
    ehtFind hash t q = ehtFind hash s q := by
  cases hb : (targetBucket hash s k).insertB k v with
  | some b2 =>
    rw [ehtInsertStep_inl_next hash s k v b2 hb] at h
    cases h
  | none =>
    by_cases hd : (targetBucket hash s k).depth_ < s.global_depth_
    · rw [insertStep_split_next hash s k v hInv hb hd] at h
      cases h
      exact find_split hash s k hInv hd q
    · rw [ehtInsertStep_double hash s k v hb hd] at h
      cases h
      exact find_double hash s hInv q

theorem find_insertFuel_self (k : K) (v : V) :
    ∀ (fuel : Nat) (s t : EHT K V), TableInv hash s →
      ehtInsertFuel hash fuel s k v = some t → ehtFind hash t k = some v := by
  intro fuel
  induction fuel with
  | zero => intro s t _ h; cases h
  | succ fuel ih =>
    intro s t hInv h
    simp only [ehtInsertFuel] at h
    cases hstep : ehtInsertStep hash s k v with
    | inl t2 =>
      rw [hstep] at h
      cases h
      cases hb : (targetBucket hash s k).insertB k v with
      | some b2 =>
        rw [ehtInsertStep_inl_next hash s k v b2 hb] at hstep
        cases hstep
        exact find_inl_self hash s k v b2 hInv hb
      | none =>
        by_cases hd : (targetBucket hash s k).depth_ < s.global_depth_
        · rw [insertStep_split_next hash s k v hInv hb hd] at hstep
          cases hstep
        · rw [ehtInsertStep_double hash s k v hb hd] at hstep
          cases hstep
    | inr t2 =>
      rw [hstep] at h
      exact ih t2 t (tinv_step_inr hash s k v t2 hInv hstep) h

theorem find_insertFuel_ne (k : K) (v : V) (q : K) (hne : q ≠ k) :
    ∀ (fuel : Nat) (s t : EHT K V), TableInv hash s →
      ehtInsertFuel hash fuel s k v = some t →
      ehtFind hash t q = ehtFind hash s q := by
  intro fuel
  induction fuel with
  | zero => intro s t _ h; cases h
  | succ fuel ih =>
    intro s t hInv h
    simp only [ehtInsertFuel] at h
    cases hstep : ehtInsertStep hash s k v with
    | inl t2 =>
      rw [hstep] at h
      cases h
      cases hb : (targetBucket hash s k).insertB k v with
      | some b2 =>
        rw [ehtInsertStep_inl_next hash s k v b2 hb] at hstep
        cases hstep
        exact find_inl_ne hash s k v b2 q hInv hb hne
      | none =>
        by_cases hd : (targetBucket hash s k).depth_ < s.global_depth_
        · rw [insertStep_split_next hash s k v hInv hb hd] at hstep
          cases hstep
        · rw [ehtInsertStep_double hash s k v hb hd] at hstep
          cases hstep
    | inr t2 =>
      rw [hstep] at h
      rw [ih t2 t (tinv_step_inr hash s k v t2 hInv hstep) h]
      exact find_inr hash s k v t2 hInv hstep q

/-! ## Directory reference counting -/

theorem tinv_count (s : EHT K V) (hInv : TableInv hash s) (i : Nat)
    (hi : i < s.dir_.length) :
    s.dir_.count (ehtDirAt s i) =
      2 ^ (s.global_depth_ - (ehtBucketAt s (ehtDirAt s i)).depth_) := by
  have hd := hInv.depth_le i hi
  rw [count_eq_countP_range (ehtDirAt s i) s.dir_]
  have hcong : List.countP (fun j => decide (s.dir_.getD j 0 = ehtDirAt s i))
      (List.range s.dir_.length) =
      List.countP (fun j => decide (j % 2 ^ (ehtBucketAt s (ehtDirAt s i)).depth_ =
        i % 2 ^ (ehtBucketAt s (ehtDirAt s i)).depth_))
      (List.range s.dir_.length) := by
    apply List.countP_congr
    intro j hj
    have hj2 : j < s.dir_.length := List.mem_range.mp hj
    have halias := hInv.alias_iff i hi j hj2
    simp only [decide_eq_true_eq]
    constructor
    · intro h
      exact (halias.mp h.symm).symm
    · intro h
      exact (halias.mpr h.symm).symm
  rw [hcong, hInv.dir_len]
  exact count_slots_mod s.global_depth_ _ _ hd
    (Nat.mod_lt _ (pow_pos (by norm_num) _))

/-! ## Hash table claim theorems -/

/-- Claim C5: after any sequence of insert, find and remove operations
from a fresh table, every directory slot `i` references a bucket whose
entries' hashes all agree with `i` on the bucket's `d_local` low bits, and
the bucket is referenced by exactly `2 ^ (d_global - d_local)` directory
slots. -/
theorem eht_dir_slot_invariant (s : EHT K V) (hreach : EReach hash s)
    (i : Nat) (hi : i < s.dir_.length) :
    (∀ x ∈ (ehtBucketAt s (ehtDirAt s i)).list_.map Prod.fst,
        hash x % 2 ^ (ehtBucketAt s (ehtDirAt s i)).depth_ =
          i % 2 ^ (ehtBucketAt s (ehtDirAt s i)).depth_) ∧
    s.dir_.count (ehtDirAt s i) =
      2 ^ (s.global_depth_ - (ehtBucketAt s (ehtDirAt s i)).depth_) := by
  have hInv := tinv_reach hash s hreach
  exact ⟨hInv.sig i hi, tinv_count hash s hInv i hi⟩

/-- Claim C6: on a reachable table, a terminating `insert(k, v)` makes
`find(k)` return `some v`; a subsequent `insert(k, v2)` overwrites in
place, so `find(k)` then returns `some v2` and `num_buckets` is
unchanged. -/
theorem eht_insert_find_roundtrip (s : EHT K V) (k : K) (v1 v2 : V)
    (f1 f2 : Nat) (s1 s2 : EHT K V) (hreach : EReach hash s)
    (h1 : ehtInsertFuel hash f1 s k v1 = some s1)
    (h2 : ehtInsertFuel hash f2 s1 k v2 = some s2) :
    ehtFind hash s1 k = some v1 ∧ ehtFind hash s2 k = some v2 ∧
      s2.num_buckets_ = s1.num_buckets_ := by
  have hInv := tinv_reach hash s hreach
  have hInv1 := tinv_insertFuel hash k v1 f1 s s1 hInv h1
  have hf1 : ehtFind hash s1 k = some v1 :=
    find_insertFuel_self hash k v1 f1 s s1 hInv h1
  have hfl : bucketFindList k (targetBucket hash s1 k).list_ = some v1 := hf1
  rcases overwriteFirst_isSome k v2 v1 (targetBucket hash s1 k).list_ hfl with
    ⟨l2, hov⟩
  have hb : (targetBucket hash s1 k).insertB k v2 =
      some { targetBucket hash s1 k with list_ := l2 } := by
    simp [EBucket.insertB, hov]
  cases f2 with
  | zero => cases h2
  | succ f2 =>
    simp only [ehtInsertFuel] at h2
    rw [ehtInsertStep_inl_next hash s1 k v2 _ hb] at h2
    cases h2
    exact ⟨hf1, find_inl_self hash s1 k v2 _ hInv1 hb, rfl⟩

/-- Claim C7: on every reachable table the directory size is exactly
`2 ^ d_global` (the fresh table included), and when `Insert` reaches a full
bucket whose local depth has caught up with the global depth, the iteration
doubles the directory by appending a copy of the existing slots in order
and increments `d_global` by one. -/
theorem eht_dir_size_pow (s : EHT K V) (k : K) (v : V)
    (hreach : EReach hash s) :
    s.dir_.length = 2 ^ s.global_depth_ ∧
    ((targetBucket hash s k).insertB k v = none →
      s.global_depth_ ≤ (targetBucket hash s k).depth_ →
      ehtInsertStep hash s k v =
        Sum.inr { s with dir_ := s.dir_ ++ s.dir_,
                         global_depth_ := s.global_depth_ + 1 }) := by
  have hInv := tinv_reach hash s hreach
  refine ⟨hInv.dir_len, ?_⟩
  intro hfail hge
  rw [ehtInsertStep_double hash s k v hfail (by omega)]
  rfl

/-- Claim C10: on a reachable table, a terminating `insert(k, v)` does not
change the result of `find(q)` for any key `q ≠ k`: splits and directory
doublings move and re-alias entries but never drop, duplicate, or alter the
value mapped to any other key. -/
theorem eht_insert_frame_effect (s : EHT K V) (k : K) (v : V) (q : K)
    (f : Nat) (t : EHT K V) (hreach : EReach hash s) (hne : q ≠ k)
    (h : ehtInsertFuel hash f s k v = some t) :
    ehtFind hash t q = ehtFind hash s q :=
  find_insertFuel_ne hash k v q hne f s t (tinv_reach hash s hreach) h

/-! ## Split-loop progress and conditional termination -/

theorem getD_map_lt {α β : Type} (f : α → β) (l : List α) (i : Nat) (d : β)
    (d2 : α) (h : i < l.length) : (l.map f).getD i d = f (l.getD i d2) := by
  rw [List.getD_eq_getElem (l.map f) d (by simpa using h), List.getElem_map,
    List.getD_eq_getElem l d2 h]

/-- The number of entries of the table whose key differs from `k` but whose
hash agrees with `hash k` on the low `D` bits. -/
def collideCount (s : EHT K V) (k : K) (D : Nat) : Nat :=
  List.countP (fun e => decide (¬ e.1 = k ∧ hash e.1 % 2 ^ D = hash k % 2 ^ D))
    (entriesOf s)

theorem targetDepth_splitNext (s : EHT K V) (k : K) (hInv : TableInv hash s) :
    targetDepth hash (splitNext hash s k) k = targetDepth hash s k + 1 := by
  have hidx := tinv_idx_lt hash s hInv k
  have hslots := split_slots hash s k hInv (ehtIndexOf hash s k) hidx
  have hq0 : ehtIndexOf hash s k % 2 ^ targetDepth hash s k =
      splitPrev hash s k := rfl
  show (ehtBucketAt (splitNext hash s k) (ehtDirAt (splitNext hash s k)
      (ehtIndexOf hash s k))).depth_ = targetDepth hash s k + 1
  rcases split_dich _ _ _ hq0 with hc | hc
  · rw [(hslots.1 hc).2]
  · rw [(hslots.2.1 hc).2]

theorem targetDepth_doubleNext (s : EHT K V) (k : K) (hInv : TableInv hash s) :
    targetDepth hash (doubleNext s) k = targetDepth hash s k := by
  show (ehtBucketAt (doubleNext s) (ehtDirAt (doubleNext s)
      (hash k % 2 ^ (s.global_depth_ + 1)))).depth_ = targetDepth hash s k
  rw [doubleNext_dirAt hash s hInv _ (Nat.mod_lt _ (pow_pos (by norm_num) _)),
    doubleNext_bucketAt,
    mod_pow_mod (hash k) s.global_depth_ (s.global_depth_ + 1) (by omega)]
  rfl

theorem countP_entries_splitNext (s : EHT K V) (k : K) (hInv : TableInv hash s)
    (p : K × V → Bool) :
    List.countP p (entriesOf (splitNext hash s k)) =
      List.countP p (entriesOf s) := by
  have hbid := tinv_bid_lt hash s hInv k
  have he : entriesOf (splitNext hash s k) =
      ((s.buckets_.map EBucket.list_).set (targetBid hash s k)
        (splitKept hash s k)).flatten ++ splitMoved hash s k := by
    simp [entriesOf, splitNext, splitState, List.map_append, List.map_set,
      List.flatten_append]
  rw [he, List.countP_append]
  have hset := countP_flatten_set p (s.buckets_.map EBucket.list_)
    (targetBid hash s k) (splitKept hash s k) (by simpa using hbid)
  have hgetD : (s.buckets_.map EBucket.list_).getD (targetBid hash s k) [] =
      (targetBucket hash s k).list_ :=
    getD_map_lt EBucket.list_ s.buckets_ _ [] ⟨0, 0, []⟩ hbid
  rw [hgetD] at hset
  have hpart : List.countP p (targetBucket hash s k).list_ =
      List.countP p (splitKept hash s k) + List.countP p (splitMoved hash s k) := by
    simp only [splitKept, splitMoved]
    exact countP_filter_not_add p _ (targetBucket hash s k).list_
  have hes : List.countP p (entriesOf s) =
      List.countP p (s.buckets_.map EBucket.list_).flatten := rfl
  rw [hes]
  omega

theorem step_inr_cases (s : EHT K V) (k : K) (v : V) (t : EHT K V)
    (hInv : TableInv hash s) (h : ehtInsertStep hash s k v = Sum.inr t) :
    (targetDepth hash t k = targetDepth hash s k + 1 ∧
      t.global_depth_ = s.global_depth_ ∧ t.bucket_size_ = s.bucket_size_ ∧
      ∀ p : K × V → Bool,
        List.countP p (entriesOf t) = List.countP p (entriesOf s)) ∨
    (targetDepth hash t k = targetDepth hash s k ∧
      t.global_depth_ = s.global_depth_ + 1 ∧ t.bucket_size_ = s.bucket_size_ ∧
      s.global_depth_ = targetDepth hash s k ∧
      ∀ p : K × V → Bool,
        List.countP p (entriesOf t) = List.countP p (entriesOf s)) := by
  cases hb : (targetBucket hash s k).insertB k v with
  | some b2 =>
    rw [ehtInsertStep_inl_next hash s k v b2 hb] at h
    cases h
  | none =>
    by_cases hd : (targetBucket hash s k).depth_ < s.global_depth_
    · rw [insertStep_split_next hash s k v hInv hb hd] at h
      cases h
      exact Or.inl ⟨targetDepth_splitNext hash s k hInv, rfl, rfl,
        fun p => countP_entries_splitNext hash s k hInv p⟩
    · rw [ehtInsertStep_double hash s k v hb hd] at h
      cases h
      have hd2 : ¬ targetDepth hash s k < s.global_depth_ := hd
      have hle : targetDepth hash s k ≤ s.global_depth_ :=
        hInv.depth_le _ (tinv_idx_lt hash s hInv k)
      exact Or.inr ⟨targetDepth_doubleNext hash s k hInv, rfl, rfl,
        by omega, fun p => rfl⟩

theorem step_success_of_depth (s : EHT K V) (k : K) (v : V) (D : Nat)
    (hInv : TableInv hash s) (hD : D ≤ targetDepth hash s k)
    (hcnt : collideCount hash s k D < s.bucket_size_) :
    ∃ t, ehtInsertStep hash s k v = Sum.inl t := by
  cases hov : overwriteFirst k v (targetBucket hash s k).list_ with
  | some l2 =>
    refine ⟨_, ehtInsertStep_inl_next hash s k v
      ⟨(targetBucket hash s k).size_, (targetBucket hash s k).depth_, l2⟩ ?_⟩
    simp [EBucket.insertB, hov]
  | none =>
    have hknot := (overwriteFirst_none_iff k v (targetBucket hash s k).list_).mp hov
    have hidx := tinv_idx_lt hash s hInv k
    have hdle : targetDepth hash s k ≤ s.global_depth_ := hInv.depth_le _ hidx
    have hbmem := tinv_target_mem hash s hInv k
    have hallp : ∀ e ∈ (targetBucket hash s k).list_,
        (fun e : K × V =>
          decide (¬ e.1 = k ∧ hash e.1 % 2 ^ D = hash k % 2 ^ D)) e = true := by
      intro e he
      simp only [decide_eq_true_eq]
      refine ⟨hknot e he, ?_⟩
      have hs : hash e.1 % 2 ^ targetDepth hash s k =
          ehtIndexOf hash s k % 2 ^ targetDepth hash s k :=
        hInv.sig _ hidx e.1 (List.mem_map_of_mem Prod.fst he)
      have hk : hash k % 2 ^ targetDepth hash s k =
          ehtIndexOf hash s k % 2 ^ targetDepth hash s k :=
        (mod_pow_mod (hash k) _ _ hdle).symm
      calc hash e.1 % 2 ^ D
          = hash e.1 % 2 ^ targetDepth hash s k % 2 ^ D :=
            (mod_pow_mod (hash e.1) D _ hD).symm
        _ = hash k % 2 ^ targetDepth hash s k % 2 ^ D := by rw [hs, ← hk]
        _ = hash k % 2 ^ D := mod_pow_mod (hash k) D _ hD
    have hlenc : List.countP (fun e : K × V =>
        decide (¬ e.1 = k ∧ hash e.1 % 2 ^ D = hash k % 2 ^ D))
        (targetBucket hash s k).list_ = (targetBucket hash s k).list_.length :=
      List.countP_eq_length.mpr hallp
    have hle : List.countP (fun e : K × V =>
        decide (¬ e.1 = k ∧ hash e.1 % 2 ^ D = hash k % 2 ^ D))
        (targetBucket hash s k).list_ ≤ collideCount hash s k D :=
      countP_flatten_le_of_mem _ (s.buckets_.map EBucket.list_)
        (targetBucket hash s k).list_
        (List.mem_map_of_mem EBucket.list_ hbmem)
    have hflt : (targetBucket hash s k).list_.length < s.bucket_size_ := by
      omega
    have hsz : (targetBucket hash s k).size_ = s.bucket_size_ :=
      hInv.bsize _ hbmem
    have hnotfull : ¬ ((targetBucket hash s k).size_ ≤
        (targetBucket hash s k).list_.length) := by
      omega
    refine ⟨_, ehtInsertStep_inl_next hash s k v
      ⟨(targetBucket hash s k).size_, (targetBucket hash s k).depth_,
        (targetBucket hash s k).list_ ++ [(k, v)]⟩ ?_⟩
    simp [EBucket.insertB, hov, hnotfull]

theorem insert_terminates (k : K) (v : V) (D : Nat) :
    ∀ (fuel : Nat) (s : EHT K V), TableInv hash s →
      collideCount hash s k D < s.bucket_size_ →
      (D - targetDepth hash s k) + (D - s.global_depth_) + 1 ≤ fuel →
      ∃ t, ehtInsertFuel hash fuel s k v = some t := by
  intro fuel
  induction fuel with
  | zero => intro s _ _ hm; omega
  | succ fuel ih =>
    intro s hInv hcnt hm
    by_cases hD : D ≤ targetDepth hash s k
    · rcases step_success_of_depth hash s k v D hInv hD hcnt with ⟨t, hstep⟩
      refine ⟨t, ?_⟩
      simp only [ehtInsertFuel]
      rw [hstep]
    · push_neg at hD
      cases hstep : ehtInsertStep hash s k v with
      | inl t =>
        refine ⟨t, ?_⟩
        simp only [ehtInsertFuel]
        rw [hstep]
      | inr t =>
        have hInv2 := tinv_step_inr hash s k v t hInv hstep
        rcases step_inr_cases hash s k v t hInv hstep with
          ⟨htd, hgd, hbs, hent⟩ | ⟨htd, hgd, hbs, hgd2, hent⟩
        · have hcc : collideCount hash t k D = collideCount hash s k D := hent _
          have hm2 : (D - targetDepth hash t k) + (D - t.global_depth_) + 1 ≤
              fuel := by
            rw [htd, hgd]
            omega
          rcases ih t hInv2 (by rw [hcc, hbs]; exact hcnt) hm2 with ⟨t2, h2⟩
          refine ⟨t2, ?_⟩
          simp only [ehtInsertFuel]
          rw [hstep]
          exact h2
        · have hcc : collideCount hash t k D = collideCount hash s k D := hent _
          have hm2 : (D - targetDepth hash t k) + (D - t.global_depth_) + 1 ≤
              fuel := by
            rw [htd, hgd]
            omega
          rcases ih t hInv2 (by rw [hcc, hbs]; exact hcnt) hm2 with ⟨t2, h2⟩
          refine ⟨t2, ?_⟩
          simp only [ehtInsertFuel]
          rw [hstep]
          exact h2

/-- Claim C8: each continuing iteration of the split loop strictly
increases `d_local` of the key's target bucket or `d_global` (their sum
grows by exactly one), and whenever some bit-depth `D` separates `k` from
all but fewer than `bucket_size` other keys of the table, the insert
terminates — `2 * D + 2` iterations suffice.  Only when more than
`bucket_size` keys share the low hash bits at every depth can the loop run
forever. -/
theorem eht_split_loop_progress_termination (s : EHT K V) (k : K) (v : V)
    (t : EHT K V) (D : Nat) (hreach : EReach hash s) :
    (ehtInsertStep hash s k v = Sum.inr t →
      t.global_depth_ + targetDepth hash t k =
        s.global_depth_ + targetDepth hash s k + 1) ∧
    (collideCount hash s k D < s.bucket_size_ →
      ∃ t2, ehtInsertFuel hash (2 * D + 2) s k v = some t2) := by
  have hInv := tinv_reach hash s hreach
  constructor
  · intro h
    rcases step_inr_cases hash s k v t hInv h with
      ⟨htd, hgd, _, _⟩ | ⟨htd, hgd, _, _, _⟩
    · rw [htd, hgd]
      omega
    · rw [htd, hgd]
      omega
  · intro hcnt
    exact insert_terminates hash k v D (2 * D + 2) s hInv hcnt (by omega)

end StepLemmas

/-! ## Concrete witnesses for the hash-table theorems -/

theorem eht_dir_slot_invariant_witness :
    (newTable 1 : EHT Nat Nat).dir_.count (ehtDirAt (newTable 1 : EHT Nat Nat) 0) =
      2 ^ ((newTable 1 : EHT Nat Nat).global_depth_ -
        (ehtBucketAt (newTable 1 : EHT Nat Nat)
          (ehtDirAt (newTable 1 : EHT Nat Nat) 0)).depth_) :=
  (eht_dir_slot_invariant (fun x : Nat => x) (newTable 1)
    (EReach.init 1 (by decide)) 0 (by decide)).2

theorem eht_insert_find_roundtrip_witness :
    ehtFind (fun x : Nat => x)
        (⟨0, 2, 1, [0], [⟨2, 0, [(0, 5)]⟩]⟩ : EHT Nat Nat) 0 = some 5 ∧
    ehtFind (fun x : Nat => x)
        (⟨0, 2, 1, [0], [⟨2, 0, [(0, 7)]⟩]⟩ : EHT Nat Nat) 0 = some 7 ∧
    (⟨0, 2, 1, [0], [⟨2, 0, [(0, 7)]⟩]⟩ : EHT Nat Nat).num_buckets_ =
      (⟨0, 2, 1, [0], [⟨2, 0, [(0, 5)]⟩]⟩ : EHT Nat Nat).num_buckets_ :=
  eht_insert_find_roundtrip (fun x : Nat => x) (newTable 2) 0 5 7 1 1 _ _
    (EReach.init 2 (by decide)) (by decide) (by decide)

theorem eht_dir_size_pow_witness :
    ehtInsertStep (fun x : Nat => x)
        (⟨0, 1, 1, [0], [⟨1, 0, [(0, 5)]⟩]⟩ : EHT Nat Nat) 1 9 =
      Sum.inr ⟨1, 1, 1, [0, 0], [⟨1, 0, [(0, 5)]⟩]⟩ := by
  have hreach : EReach (fun x : Nat => x)
      (⟨0, 1, 1, [0], [⟨1, 0, [(0, 5)]⟩]⟩ : EHT Nat Nat) :=
    EReach.insert (newTable 1) 0 5 1 _
      (EReach.init 1 (by decide)) (by decide)
  exact (eht_dir_size_pow (fun x : Nat => x) _ 1 9 hreach).2 (by decide) (by decide)

theorem eht_split_loop_progress_termination_witness :
    ((⟨1, 1, 1, [0, 0], [⟨1, 0, [(0, 5)]⟩]⟩ : EHT Nat Nat).global_depth_ +
        targetDepth (fun x : Nat => x)
          (⟨1, 1, 1, [0, 0], [⟨1, 0, [(0, 5)]⟩]⟩ : EHT Nat Nat) 1 =
      (⟨0, 1, 1, [0], [⟨1, 0, [(0, 5)]⟩]⟩ : EHT Nat Nat).global_depth_ +
        targetDepth (fun x : Nat => x)
          (⟨0, 1, 1, [0], [⟨1, 0, [(0, 5)]⟩]⟩ : EHT Nat Nat) 1 + 1) ∧
    ∃ t2, ehtInsertFuel (fun x : Nat => x) (2 * 1 + 2)
        (⟨0, 1, 1, [0], [⟨1, 0, [(0, 5)]⟩]⟩ : EHT Nat Nat) 1 9 = some t2 := by
  have hreach : EReach (fun x : Nat => x)
      (⟨0, 1, 1, [0], [⟨1, 0, [(0, 5)]⟩]⟩ : EHT Nat Nat) :=
    EReach.insert (newTable 1) 0 5 1 _
      (EReach.init 1 (by decide)) (by decide)
  have happ := eht_split_loop_progress_termination (fun x : Nat => x)
    (⟨0, 1, 1, [0], [⟨1, 0, [(0, 5)]⟩]⟩ : EHT Nat Nat) 1 9
    (⟨1, 1, 1, [0, 0], [⟨1, 0, [(0, 5)]⟩]⟩ : EHT Nat Nat) 1 hreach
  exact ⟨happ.1 (by decide), happ.2 (by decide)⟩

theorem eht_insert_frame_effect_witness :
    ehtFind (fun x : Nat => x)
        (⟨0, 2, 1, [0], [⟨2, 0, [(0, 5), (1, 7)]⟩]⟩ : EHT Nat Nat) 0 =
      ehtFind (fun x : Nat => x)
        (⟨0, 2, 1, [0], [⟨2, 0, [(0, 5)]⟩]⟩ : EHT Nat Nat) 0 := by
  have hreach : EReach (fun x : Nat => x)
      (⟨0, 2, 1, [0], [⟨2, 0, [(0, 5)]⟩]⟩ : EHT Nat Nat) :=
    EReach.insert (newTable 2) 0 5 1 _
      (EReach.init 2 (by decide)) (by decide)
  exact eht_insert_frame_effect (fun x : Nat => x) _ 1 7 0 1 _ hreach
    (by decide) (by decide)
